import Mathlib

/-!
Shallow embedding of the circuit-core crate (blankly-app/circuit):
`src/circuit-core/src/value.rs`, `graph.rs`, `engine.rs`, and the two
catalog blocks the spec's scenarios use (`blocks/core.rs` ConstantBlock,
`blocks/math.rs` DivideBlock), together with proofs of the spec's claims.

Modelling conventions:
* Rust `HashMap<String, T>` is modelled as an association list
  `List (String × T)` with unique keys; `insertMap` overwrites in place,
  `lookup?` finds the first binding.  Where Rust iterates a map in its
  arbitrary (but per-map fixed) hash order, the embedding iterates the
  list in order: one fixed representative of that arbitrary order.
* Rust `HashSet<String>` is modelled as a `List String` used only through
  membership, insertion (cons) and removal (filter).
* `f64` payloads are modelled by `Rat`.  The claims under study use floats
  only to carry payloads and to compare against the literal `0.0`, where
  rational arithmetic agrees exactly with IEEE doubles for the inputs
  involved; no claim depends on rounding.
* The recursive DFS of `Graph::would_create_cycle` and the Kahn loop of
  `Graph::topological_sort` are written with an explicit fuel parameter so
  that they are structurally recursive; the fuel bounds are chosen (and,
  for Kahn, proved along the invariants) large enough that the fuel-out
  branch is unreachable on the graphs the claims quantify over.
* Rust methods that take `&mut self` and return `Result<()>` are modelled
  as pure functions `α → Except CircuitError α`: the `.ok` payload is the
  mutated receiver, and an `.error` result means the receiver was left
  exactly as it was (each Rust method errors out before any mutation,
  except where noted).
* `in_degree.get_mut(..).unwrap()` panics in Rust when the key is absent;
  the embedding's `updateMap` leaves the map unchanged instead.  All claims
  quantify over well-formed graphs (`Graph.WF`), where every such key is
  present and the two semantics coincide.
-/

namespace Circuit

/-- Payload type of `Value::Float` (`f64` in Rust), modelled by `Rat`. -/
abbrev F64 := Rat

/-- Rust's `i as f64` widening used by `Value::as_float`.  Exact for every
`i64` below 2^53 in magnitude; the claims never depend on the rounding of
larger values. -/
def intToF64 (i : Int) : F64 := (i : Rat)

/-- Tagged value union from `value.rs` (`enum Value`). -/
inductive Value where
  | null : Value
  | bool (b : Bool) : Value
  | int (i : Int) : Value
  | float (f : F64) : Value
  | string (s : String) : Value
  | array (xs : List Value) : Value
  | object (fields : List (String × Value)) : Value
  | bytes (bs : List Nat) : Value

/-- `Value::is_null`. -/
def Value.is_null : Value → Bool
  | .null => true
  | _ => false

/-- `Value::as_bool`. -/
def Value.as_bool : Value → Option Bool
  | .bool b => some b
  | _ => none

/-- `Value::as_int`. -/
def Value.as_int : Value → Option Int
  | .int i => some i
  | _ => none

/-- `Value::as_float`: the Float payload, or an Int widened to float. -/
def Value.as_float : Value → Option F64
  | .float f => some f
  | .int i => some (intToF64 i)
  | _ => none

/-- `Value::as_str`. -/
def Value.as_str : Value → Option String
  | .string s => some s
  | _ => none

/-- `Value::as_array`. -/
def Value.as_array : Value → Option (List Value)
  | .array xs => some xs
  | _ => none

/-- `Value::as_object`. -/
def Value.as_object : Value → Option (List (String × Value))
  | .object fields => some fields
  | _ => none

/-- `HashMap::get` on the association-list model: first binding wins. -/
def lookup? {α : Type} : List (String × α) → String → Option α
  | [], _ => none
  | (k, v) :: rest, key => if k = key then some v else lookup? rest key

/-- `HashMap::insert` on the association-list model: overwrite the binding in
place if the key is present, else append it. -/
def insertMap {α : Type} : List (String × α) → String → α → List (String × α)
  | [], key, v => [(key, v)]
  | (k, w) :: rest, key, v =>
    if k = key then (key, v) :: rest else (k, w) :: insertMap rest key v

/-- Read-modify-write of one binding (`*map.get_mut(key).unwrap() = f _` in
Rust).  An absent key is left alone where Rust would panic; all claims are
stated over graphs where the key is present. -/
def updateMap {α : Type} : List (String × α) → String → (α → α) → List (String × α)
  | [], _, _ => []
  | (k, w) :: rest, key, f =>
    if k = key then (k, f w) :: rest else (k, w) :: updateMap rest key f

/-- `HashMap::remove` on the association-list model. -/
def removeMap {α : Type} (m : List (String × α)) (key : String) : List (String × α) :=
  m.filter (fun p => p.1 ≠ key)

/-- Key list of a modelled map (`HashMap::keys`, in the model's fixed order). -/
def keysOf {α : Type} (m : List (String × α)) : List String :=
  m.map Prod.fst

/-- Error enum from `error.rs` (`enum CircuitError`).  The `Serialization`
and `Other` variants carry foreign error values in Rust; here they carry
their rendered message, which is all the engine ever consults. -/
inductive CircuitError where
  | blockExecution (msg : String) : CircuitError
  | graph (msg : String) : CircuitError
  | nodeNotFound (id : String) : CircuitError
  | invalidConnection (msg : String) : CircuitError
  | serialization (msg : String) : CircuitError
  | cycleDetected : CircuitError
  | invalidInput (msg : String) : CircuitError
  | typeMismatch (expected actual : String) : CircuitError
  | other (msg : String) : CircuitError
deriving DecidableEq

/-- Display rendering of `CircuitError` as generated by `thiserror`'s
`#[error(..)]` attributes in `error.rs`. -/
def CircuitError.message : CircuitError → String
  | .blockExecution msg => "Block execution error: " ++ msg
  | .graph msg => "Graph error: " ++ msg
  | .nodeNotFound id => "Node not found: " ++ id
  | .invalidConnection msg => "Invalid connection: " ++ msg
  | .serialization msg => "Serialization error: " ++ msg
  | .cycleDetected => "Cycle detected in graph"
  | .invalidInput msg => "Invalid input: " ++ msg
  | .typeMismatch expected actual =>
      "Type mismatch: expected " ++ expected ++ ", got " ++ actual
  | .other msg => "Other error: " ++ msg

/-- Port description from `block.rs` (`struct PortDefinition`). -/
structure PortDefinition where
  id : String
  name : String
  data_type : String
  required : Bool

/-- Block metadata from `block.rs` (`struct BlockMetadata`). -/
structure BlockMetadata where
  id : String
  name : String
  description : String
  inputs : List PortDefinition
  outputs : List PortDefinition
  config_schema : List (String × String)

/-- Execution context from `block.rs` (`struct BlockContext`). -/
structure BlockContext where
  inputs : List (String × Value)
  config : List (String × Value)

/-- `BlockContext::new`. -/
def BlockContext.new : BlockContext := ⟨[], []⟩

/-- `BlockContext::get_input`. -/
def BlockContext.get_input (c : BlockContext) (port_id : String) : Option Value :=
  lookup? c.inputs port_id

/-- `BlockContext::get_config`. -/
def BlockContext.get_config (c : BlockContext) (key : String) : Option Value :=
  lookup? c.config key

/-- A block implementation (`trait Block` object): its metadata and its
execute method.  `validate` defaults to success and is never invoked by the
engine, so it is not modelled. -/
structure Block where
  metadata : BlockMetadata
  execute : BlockContext → Except CircuitError (List (String × Value))

/-- Node of a graph from `graph.rs` (`struct Node`). -/
structure Node where
  id : String
  block_type : String
  config : List (String × Value)
  position : Option (F64 × F64)

/-- Directed edge from `graph.rs` (`struct Connection`). -/
structure Connection where
  from_node : String
  from_port : String
  to_node : String
  to_port : String
deriving DecidableEq

/-- Graph from `graph.rs` (`struct Graph`). -/
structure Graph where
  id : String
  name : String
  description : Option String
  nodes : List (String × Node)
  connections : List Connection

/-- `Graph::new`. -/
def Graph.new (id name : String) : Graph :=
  { id := id, name := name, description := none, nodes := [], connections := [] }

/-- `Graph::add_node`. -/
def Graph.add_node (g : Graph) (node : Node) : Except CircuitError Graph :=
  if (lookup? g.nodes node.id).isSome then
    .error (.graph ("Node with id '" ++ node.id ++ "' already exists"))
  else
    .ok { g with nodes := insertMap g.nodes node.id node }

/-- `Graph::remove_node`. -/
def Graph.remove_node (g : Graph) (node_id : String) : Except CircuitError Graph :=
  if (lookup? g.nodes node_id).isSome then
    .ok { g with
          connections :=
            g.connections.filter
              (fun conn => conn.from_node != node_id && conn.to_node != node_id),
          nodes := removeMap g.nodes node_id }
  else
    .error (.nodeNotFound node_id)

/-- Successor list of a node in the adjacency map the Rust code builds by
pushing `conn.to_node` under `conn.from_node` for each connection in list
order. -/
def successors (conns : List Connection) (node : String) : List String :=
  (conns.filter (fun conn => conn.from_node == node)).map Connection.to_node

/-- One neighbor inspection of the DFS scan loop in `fn has_cycle`: keep an
already found cycle (the Rust loop has returned by then), skip a visited
neighbor — reporting a cycle when it is still on the recursion stack — and
recurse on an unvisited one. -/
def hasCycleScan
    (recur : String → List String → List String → Bool × List String × List String)
    (acc : Bool × List String × List String) (neighbor : String) :
    Bool × List String × List String :=
  match acc with
  | (true, v, s) => (true, v, s)
  | (false, v, s) =>
    if neighbor ∈ v then
      if neighbor ∈ s then (true, v, s) else (false, v, s)
    else
      recur neighbor v s

/-- Recursive DFS of `Graph::would_create_cycle` (`fn has_cycle`), with fuel.
Marks the node visited and on the recursion stack, scans its neighbors in
adjacency order with early exit, then takes the node off the stack.  Returns
the cycle flag and the final visited set and recursion stack. -/
def hasCycle (adjacency : String → List String) :
    Nat → String → List String → List String → Bool × List String × List String
  | 0, _, visited, rec_stack => (true, visited, rec_stack)
  | fuel + 1, node, visited, rec_stack =>
    let visited := node :: visited
    let rec_stack := node :: rec_stack
    match (adjacency node).foldl (hasCycleScan (hasCycle adjacency fuel))
        (false, visited, rec_stack) with
    | (true, v, s) => (true, v, s)
    | (false, v, s) => (false, v, s.filter (fun x => x != node))

/-- Outer loop of `Graph::would_create_cycle`: start a DFS at every not yet
visited node key, in key order. -/
def hasCycleOuter (adjacency : String → List String) (fuel : Nat) :
    List String → List String → List String → Bool
  | [], _, _ => false
  | key :: rest, visited, rec_stack =>
    if key ∈ visited then hasCycleOuter adjacency fuel rest visited rec_stack
    else
      match hasCycle adjacency fuel key visited rec_stack with
      | (true, _, _) => true
      | (false, v, s) => hasCycleOuter adjacency fuel rest v s

/-- Fuel for the DFS: one more than the number of distinct connection
targets.  Every nested `has_cycle` call below the root is on a connection
target that was unvisited at call time, so the recursion can never go this
deep (hasCycle_fuel_stable below makes this precise). -/
def dfsFuel (conns : List Connection) : Nat :=
  ((conns.map Connection.to_node).dedup).length + 1

/-- `Graph::would_create_cycle`: DFS over the existing connections plus the
candidate.  The Rust function returns `Result<bool>` but never errors. -/
def Graph.would_create_cycle (g : Graph) (new_connection : Connection) :
    Except CircuitError Bool :=
  let conns := g.connections ++ [new_connection]
  .ok (hasCycleOuter (successors conns) (dfsFuel conns) (keysOf g.nodes) [] [])

/-- `Graph::add_connection`. -/
def Graph.add_connection (g : Graph) (connection : Connection) :
    Except CircuitError Graph :=
  if (lookup? g.nodes connection.from_node).isNone then
    .error (.nodeNotFound connection.from_node)
  else if (lookup? g.nodes connection.to_node).isNone then
    .error (.nodeNotFound connection.to_node)
  else
    match g.would_create_cycle connection with
    | .error e => .error e
    | .ok true => .error .cycleDetected
    | .ok false => .ok { g with connections := g.connections ++ [connection] }

/-- In-degree table of `Graph::topological_sort`: one entry per node key,
then one increment per connection target. -/
def initDegrees (keys : List String) (conns : List Connection) :
    List (String × Nat) :=
  conns.foldl (fun deg conn => updateMap deg conn.to_node (fun d => d + 1))
    (keys.map (fun k => (k, 0)))

/-- One neighbor step of the Kahn loop: decrement the neighbor's in-degree
and enqueue it if the degree reached zero. -/
def kahnStep (dq : List (String × Nat) × List String) (neighbor : String) :
    List (String × Nat) × List String :=
  let deg := updateMap dq.1 neighbor (fun d => d - 1)
  match lookup? deg neighbor with
  | some 0 => (deg, dq.2 ++ [neighbor])
  | _ => (deg, dq.2)

/-- Kahn worklist loop of `Graph::topological_sort`, with fuel.  Pops the
queue front, appends it to the result, and processes its neighbors in
adjacency order.  The fuel-out branch is unreachable when the fuel is at
least the number of node keys (kahn_invariant below). -/
def kahnLoop (adjacency : String → List String) :
    Nat → List (String × Nat) → List String → List String → List String
  | _, _, [], result => result
  | 0, _, _ :: _, result => result
  | fuel + 1, deg, node :: rest, result =>
    let dq := (adjacency node).foldl kahnStep (deg, rest)
    kahnLoop adjacency fuel dq.1 dq.2 (result ++ [node])

/-- `Graph::topological_sort` (Kahn's algorithm). -/
def Graph.topological_sort (g : Graph) : Except CircuitError (List String) :=
  let keys := keysOf g.nodes
  let in_degree := initDegrees keys g.connections
  let queue := (in_degree.filter (fun p => p.2 == 0)).map Prod.fst
  let result := kahnLoop (successors g.connections) keys.length in_degree queue []
  if result.length = g.nodes.length then .ok result else .error .cycleDetected

/-- `Graph::get_incoming_connections`. -/
def Graph.get_incoming_connections (g : Graph) (node_id : String) :
    List Connection :=
  g.connections.filter (fun conn => conn.to_node == node_id)

/-- The execution engine from `engine.rs` (`struct Engine`): block registry
and loaded-graph table. -/
structure Engine where
  blocks : List (String × Block)
  graphs : List (String × Graph)

/-- `Engine::new`. -/
def Engine.new : Engine := ⟨[], []⟩

/-- `Engine::register_block`. -/
def Engine.register_block (e : Engine) (block : Block) : Except CircuitError Engine :=
  let metadata := block.metadata
  if (lookup? e.blocks metadata.id).isSome then
    .error (.graph ("Block type '" ++ metadata.id ++ "' is already registered"))
  else
    .ok { e with blocks := insertMap e.blocks metadata.id block }

/-- `Engine::load_graph`: validate every node's block type against the
registry (in node-table order), then insert the graph keyed by its id. -/
def Engine.load_graph (e : Engine) (g : Graph) : Except CircuitError Engine :=
  match g.nodes.find? (fun p => (lookup? e.blocks p.2.block_type).isNone) with
  | some p => .error (.graph ("Unknown block type: " ++ p.2.block_type))
  | none => .ok { e with graphs := insertMap e.graphs g.id g }

/-- Engine state after a `load_graph` call: Rust mutates the engine in place
and leaves it untouched on the error path. -/
def Engine.load_graph_state (e : Engine) (g : Graph) : Engine :=
  match e.load_graph g with
  | .ok e2 => e2
  | .error _ => e

/-- Input gathering of `Engine::execute` for one node: scan the node's
incoming connections in connection order and, when the upstream node has
recorded a value for the named output port, insert it under the target
port (overwriting an earlier insertion for the same port). -/
def buildInputs (g : Graph) (node_id : String)
    (node_outputs : List (String × List (String × Value))) :
    List (String × Value) :=
  (g.get_incoming_connections node_id).foldl
    (fun inputs connection =>
      match lookup? node_outputs connection.from_node with
      | some source_outputs =>
        match lookup? source_outputs connection.from_port with
        | some v => insertMap inputs connection.to_port v
        | none => inputs
      | none => inputs)
    []

/-- Per-node loop of `Engine::execute` over the execution order: look the
node and its block up, build the context, run the block (wrapping a block
error with the node id and aborting), and record the outputs. -/
def Engine.execNodes (e : Engine) (g : Graph) :
    List String → List (String × List (String × Value)) →
    Except CircuitError (List (String × List (String × Value)))
  | [], node_outputs => .ok node_outputs
  | node_id :: rest, node_outputs =>
    match lookup? g.nodes node_id with
    | none => .error (.nodeNotFound node_id)
    | some node =>
      match lookup? e.blocks node.block_type with
      | none => .error (.graph ("Block type '" ++ node.block_type ++ "' not found"))
      | some block =>
        let context : BlockContext :=
          { inputs := buildInputs g node_id node_outputs, config := node.config }
        match block.execute context with
        | .error err =>
          .error (.blockExecution ("Node '" ++ node_id ++ "': " ++ err.message))
        | .ok outputs => e.execNodes g rest (insertMap node_outputs node_id outputs)

/-- `Engine::execute`: topological order, then the per-node loop starting
from an empty output table. -/
def Engine.execute (e : Engine) (g : Graph) :
    Except CircuitError (List (String × List (String × Value))) :=
  match g.topological_sort with
  | .error err => .error err
  | .ok execution_order => e.execNodes g execution_order []

/-- `Engine::execute_graph`. -/
def Engine.execute_graph (e : Engine) (graph_id : String) :
    Except CircuitError (List (String × List (String × Value))) :=
  match lookup? e.graphs graph_id with
  | none => .error (.graph ("Graph '" ++ graph_id ++ "' not found"))
  | some g => e.execute g

/-- `Engine::list_blocks`. -/
def Engine.list_blocks (e : Engine) : List String := keysOf e.blocks

/-- `Engine::list_graphs`. -/
def Engine.list_graphs (e : Engine) : List String := keysOf e.graphs

/-- `ConstantBlock` from `blocks/core.rs`: outputs its configured value. -/
def ConstantBlock : Block where
  metadata :=
    { id := "core.constant"
      name := "Constant"
      description := "Outputs a constant value"
      inputs := []
      outputs := [{ id := "value", name := "Value", data_type := "any", required := true }]
      config_schema := [("value", "any")] }
  execute := fun context =>
    match context.get_config "value" with
    | none => .error (.invalidInput "Missing config 'value'")
    | some v => .ok [("value", v)]

/-- `DivideBlock` from `blocks/math.rs`: float division, rejecting a zero
divisor. -/
def DivideBlock : Block where
  metadata :=
    { id := "math.divide"
      name := "Divide"
      description := "Divide two numbers (a / b)"
      inputs :=
        [{ id := "a", name := "A", data_type := "number", required := true },
         { id := "b", name := "B", data_type := "number", required := true }]
      outputs := [{ id := "result", name := "Result", data_type := "number", required := true }]
      config_schema := [] }
  execute := fun context =>
    match (context.get_input "a").bind Value.as_float with
    | none => .error (.invalidInput "Missing or invalid input 'a'")
    | some a =>
      match (context.get_input "b").bind Value.as_float with
      | none => .error (.invalidInput "Missing or invalid input 'b'")
      | some b =>
        if b = 0 then .error (.blockExecution "Division by zero")
        else .ok [("result", .float (a / b))]

/-! Lemmas about the association-list model of `HashMap`. -/

@[simp] theorem lookup?_nil {α : Type} (k : String) :
    lookup? ([] : List (String × α)) k = none := rfl

@[simp] theorem lookup?_cons {α : Type} (k' k : String) (w : α) (rest : List (String × α)) :
    lookup? ((k', w) :: rest) k = if k' = k then some w else lookup? rest k := rfl

theorem removeMap_cons_self {α : Type} (k : String) (w : α) (rest : List (String × α)) :
    removeMap ((k, w) :: rest) k = removeMap rest k := by
  simp [removeMap, List.filter_cons]

theorem removeMap_cons_ne {α : Type} {k k' : String} (w : α) (rest : List (String × α))
    (h : ¬ k' = k) : removeMap ((k', w) :: rest) k = (k', w) :: removeMap rest k := by
  simp [removeMap, List.filter_cons, h]

theorem lookup?_eq_none_iff {α : Type} (m : List (String × α)) (k : String) :
    lookup? m k = none ↔ k ∉ keysOf m := by
  induction m with
  | nil => simp [lookup?, keysOf]
  | cons p rest ih =>
    obtain ⟨k', v⟩ := p
    simp only [lookup?, keysOf, List.map_cons, List.mem_cons] at ih ⊢
    by_cases h : k' = k
    · simp [h]
    · rw [if_neg h, ih]
      constructor
      · intro hn hc
        rcases hc with he | hm
        · exact h he.symm
        · exact hn hm
      · intro hc hm
        exact hc (Or.inr hm)

theorem lookup?_isSome_iff {α : Type} (m : List (String × α)) (k : String) :
    (lookup? m k).isSome = true ↔ k ∈ keysOf m := by
  rw [Option.isSome_iff_ne_none, ne_eq, lookup?_eq_none_iff, not_not]

theorem mem_of_lookup?_eq_some {α : Type} {m : List (String × α)} {k : String} {v : α}
    (h : lookup? m k = some v) : (k, v) ∈ m := by
  induction m with
  | nil => simp [lookup?] at h
  | cons p rest ih =>
    obtain ⟨k', w⟩ := p
    by_cases hk : k' = k
    · subst hk
      simp at h
      subst h
      exact List.mem_cons_self ..
    · simp only [lookup?_cons, if_neg hk] at h
      exact List.mem_cons_of_mem _ (ih h)

theorem lookup?_eq_some_of_mem {α : Type} {m : List (String × α)} {k : String} {v : α}
    (hnd : (keysOf m).Nodup) (h : (k, v) ∈ m) : lookup? m k = some v := by
  induction m with
  | nil => simp at h
  | cons p rest ih =>
    obtain ⟨k', w⟩ := p
    simp only [keysOf, List.map_cons, List.nodup_cons] at hnd
    rcases List.mem_cons.mp h with h1 | h1
    · simp only [Prod.mk.injEq] at h1
      obtain ⟨h1a, h1b⟩ := h1
      subst h1a; subst h1b
      simp [lookup?]
    · have hk : ¬ k' = k := by
        rintro rfl
        exact hnd.1 (List.mem_map.mpr ⟨(k', v), h1, rfl⟩)
      simp only [lookup?, if_neg hk]
      exact ih hnd.2 h1

theorem lookup?_insertMap_self {α : Type} (m : List (String × α)) (k : String) (v : α) :
    lookup? (insertMap m k v) k = some v := by
  induction m with
  | nil => simp [insertMap, lookup?]
  | cons p rest ih =>
    obtain ⟨k', w⟩ := p
    by_cases h : k' = k <;> simp [insertMap, lookup?, h, ih]

theorem lookup?_insertMap_ne {α : Type} (m : List (String × α)) (k k2 : String) (v : α)
    (h : k2 ≠ k) : lookup? (insertMap m k v) k2 = lookup? m k2 := by
  have hne : ¬ k = k2 := fun he => h he.symm
  induction m with
  | nil =>
    simp only [insertMap, lookup?]
    rw [if_neg hne]
  | cons p rest ih =>
    obtain ⟨k', w⟩ := p
    by_cases hk : k' = k
    · subst hk
      simp only [insertMap, if_pos rfl, lookup?]
      rw [if_neg hne, if_neg hne]
    · simp only [insertMap, if_neg hk, lookup?]
      by_cases hk2 : k' = k2
      · simp [hk2]
      · simp [hk2, ih]

theorem keysOf_updateMap {α : Type} (m : List (String × α)) (k : String) (f : α → α) :
    keysOf (updateMap m k f) = keysOf m := by
  induction m with
  | nil => simp [updateMap]
  | cons p rest ih =>
    obtain ⟨k', w⟩ := p
    by_cases h : k' = k <;> simp [updateMap, keysOf, h] at ih ⊢ <;> exact ih

theorem lookup?_updateMap_self {α : Type} (m : List (String × α)) (k : String) (f : α → α) :
    lookup? (updateMap m k f) k = (lookup? m k).map f := by
  induction m with
  | nil => simp [updateMap, lookup?]
  | cons p rest ih =>
    obtain ⟨k', w⟩ := p
    by_cases h : k' = k <;> simp [updateMap, lookup?, h, ih]

theorem lookup?_updateMap_ne {α : Type} (m : List (String × α)) (k k2 : String) (f : α → α)
    (h : k2 ≠ k) : lookup? (updateMap m k f) k2 = lookup? m k2 := by
  have hne : ¬ k = k2 := fun he => h he.symm
  induction m with
  | nil => simp [updateMap]
  | cons p rest ih =>
    obtain ⟨k', w⟩ := p
    by_cases hk : k' = k
    · subst hk
      simp only [updateMap, if_pos rfl, lookup?]
      rw [if_neg hne, if_neg hne]
    · simp only [updateMap, if_neg hk, lookup?]
      by_cases hk2 : k' = k2
      · simp [hk2]
      · simp [hk2, ih]

theorem mem_keysOf_removeMap {α : Type} (m : List (String × α)) (k x : String) :
    x ∈ keysOf (removeMap m k) ↔ x ∈ keysOf m ∧ ¬ x = k := by
  induction m with
  | nil => simp [removeMap, keysOf]
  | cons p rest ih =>
    obtain ⟨k', w⟩ := p
    by_cases hk : k' = k
    · subst hk
      rw [removeMap_cons_self]
      simp only [keysOf, List.map_cons, List.mem_cons] at ih ⊢
      rw [ih]
      constructor
      · intro hc; exact ⟨Or.inr hc.1, hc.2⟩
      · rintro ⟨he | hm, hne⟩
        · exact absurd he hne
        · exact ⟨hm, hne⟩
    · rw [removeMap_cons_ne w rest hk]
      simp only [keysOf, List.map_cons, List.mem_cons] at ih ⊢
      rw [ih]
      constructor
      · rintro (he | hc)
        · subst he; exact ⟨Or.inl rfl, fun he2 => hk he2⟩
        · exact ⟨Or.inr hc.1, hc.2⟩
      · rintro ⟨he | hm, hne⟩
        · exact Or.inl he
        · exact Or.inr ⟨hm, hne⟩

theorem nodup_keysOf_removeMap {α : Type} (m : List (String × α)) (k : String)
    (h : (keysOf m).Nodup) : (keysOf (removeMap m k)).Nodup := by
  induction m with
  | nil => simp [removeMap, keysOf]
  | cons p rest ih =>
    obtain ⟨k', w⟩ := p
    simp only [keysOf, List.map_cons, List.nodup_cons] at h
    by_cases hk : k' = k
    · subst hk
      rw [removeMap_cons_self]
      exact ih h.2
    · rw [removeMap_cons_ne w rest hk]
      simp only [keysOf, List.map_cons, List.nodup_cons]
      refine ⟨fun hc => ?_, ih h.2⟩
      rw [show List.map Prod.fst (removeMap rest k) = keysOf (removeMap rest k) from rfl,
        mem_keysOf_removeMap] at hc
      exact h.1 hc.1

theorem lookup?_removeMap_ne {α : Type} (m : List (String × α)) (k k2 : String)
    (h : k2 ≠ k) : lookup? (removeMap m k) k2 = lookup? m k2 := by
  induction m with
  | nil => rfl
  | cons p rest ih =>
    obtain ⟨k', w⟩ := p
    by_cases hk : k' = k
    · subst hk
      rw [removeMap_cons_self, ih, lookup?_cons, if_neg (fun he => h he.symm)]
    · rw [removeMap_cons_ne w rest hk, lookup?_cons, lookup?_cons]
      by_cases hk2 : k' = k2
      · rw [if_pos hk2, if_pos hk2]
      · rw [if_neg hk2, if_neg hk2, ih]

/-! Semantic view of a graph's connection list. -/

/-- One connection step: some connection leads from `u` to `v`. -/
def EdgeRel (conns : List Connection) (u v : String) : Prop :=
  ∃ c ∈ conns, c.from_node = u ∧ c.to_node = v

/-- Acyclicity of a connection list, interpreted as a directed graph over
node ids: no node reaches itself through one or more connections. -/
def AcyclicConns (conns : List Connection) : Prop :=
  ∀ u, ¬ Relation.TransGen (EdgeRel conns) u u

/-- Well-formedness of a graph value: node keys are unique (they model the
keys of a `HashMap`) and every connection endpoint is a present node.  Both
facts are the data-model invariants of spec section 3 (§3: connections are
created via `add_connection`, which validates endpoints); every graph
reachable through the mutation API satisfies them. -/
def Graph.WF (g : Graph) : Prop :=
  (keysOf g.nodes).Nodup ∧
    ∀ c ∈ g.connections,
      c.from_node ∈ keysOf g.nodes ∧ c.to_node ∈ keysOf g.nodes

theorem EdgeRel_mono {conns conns' : List Connection} (h : ∀ c ∈ conns, c ∈ conns') :
    ∀ u v, EdgeRel conns u v → EdgeRel conns' u v := by
  rintro u v ⟨c, hc, h1, h2⟩
  exact ⟨c, h c hc, h1, h2⟩

theorem AcyclicConns_mono {conns conns' : List Connection}
    (h : ∀ c ∈ conns, c ∈ conns') (hac : AcyclicConns conns') : AcyclicConns conns := by
  intro u hu
  exact hac u (Relation.TransGen.mono (EdgeRel_mono h) hu)

/-! Claim C9: the narrowing accessors of `Value`. -/

/-- C9: for every Value, each narrowing accessor returns `none` exactly when
the underlying variant does not match (all accessors are total functions, so
none can panic); `as_float` returns `some` for both `Float f` (the payload)
and `Int i` (widened to float), while `as_int` returns `some` only for the
`Int` variant, so Float-to-int coercion never occurs. -/
theorem value_accessors_exact (v : Value) :
    (∀ b, v.as_bool = some b ↔ v = .bool b) ∧
    (∀ i, v.as_int = some i ↔ v = .int i) ∧
    (∀ x, v.as_float = some x ↔ (v = .float x ∨ ∃ i, v = .int i ∧ x = intToF64 i)) ∧
    (∀ s, v.as_str = some s ↔ v = .string s) ∧
    (∀ xs, v.as_array = some xs ↔ v = .array xs) ∧
    (∀ fields, v.as_object = some fields ↔ v = .object fields) := by
  cases v <;>
    simp [Value.as_bool, Value.as_int, Value.as_float, Value.as_str,
      Value.as_array, Value.as_object, eq_comm]

/-! Claims C8 and C10: input gathering in `Engine::execute`. -/

/-- The connection `c` carries the value `v` out of the recorded upstream
outputs: its source node has recorded outputs, and those outputs contain `v`
under the source port. -/
def Supplies (node_outputs : List (String × List (String × Value)))
    (c : Connection) (v : Value) : Prop :=
  ∃ so, lookup? node_outputs c.from_node = some so ∧ lookup? so c.from_port = some v

/-- The one-connection step of `buildInputs`. -/
def buildStep (node_outputs : List (String × List (String × Value)))
    (inputs : List (String × Value)) (connection : Connection) :
    List (String × Value) :=
  match lookup? node_outputs connection.from_node with
  | some source_outputs =>
    match lookup? source_outputs connection.from_port with
    | some v => insertMap inputs connection.to_port v
    | none => inputs
  | none => inputs

theorem buildInputs_eq_foldl (g : Graph) (node_id : String)
    (node_outputs : List (String × List (String × Value))) :
    buildInputs g node_id node_outputs =
      (g.get_incoming_connections node_id).foldl (buildStep node_outputs) [] := by
  rfl

theorem buildFold_some {node_outputs : List (String × List (String × Value))}
    (conns : List Connection) (acc : List (String × Value)) (p : String) (v : Value)
    (h : lookup? (conns.foldl (buildStep node_outputs) acc) p = some v) :
    (∃ c ∈ conns, c.to_port = p ∧ Supplies node_outputs c v) ∨
      lookup? acc p = some v := by
  induction conns generalizing acc with
  | nil => exact Or.inr h
  | cons c rest ih =>
    simp only [List.foldl_cons] at h
    rcases ih (buildStep node_outputs acc c) h with hfound | hacc
    · obtain ⟨c', hc', hp, hs⟩ := hfound
      exact Or.inl ⟨c', List.mem_cons_of_mem _ hc', hp, hs⟩
    · cases hso : lookup? node_outputs c.from_node with
      | none =>
        simp only [buildStep, hso] at hacc
        exact Or.inr hacc
      | some so =>
        cases hsp : lookup? so c.from_port with
        | none =>
          simp only [buildStep, hso, hsp] at hacc
          exact Or.inr hacc
        | some w =>
          simp only [buildStep, hso, hsp] at hacc
          by_cases hp : p = c.to_port
          · subst hp
            rw [lookup?_insertMap_self] at hacc
            injection hacc with hacc
            subst hacc
            exact Or.inl ⟨c, List.mem_cons_self .., rfl, so, hso, hsp⟩
          · rw [lookup?_insertMap_ne _ _ _ _ hp] at hacc
            exact Or.inr hacc

theorem buildFold_untouched {node_outputs : List (String × List (String × Value))}
    (conns : List Connection) (acc : List (String × Value)) (p : String)
    (h : ∀ c ∈ conns, c.to_port ≠ p) :
    lookup? (conns.foldl (buildStep node_outputs) acc) p = lookup? acc p := by
  induction conns generalizing acc with
  | nil => rfl
  | cons c rest ih =>
    simp only [List.foldl_cons]
    rw [ih _ (fun c' hc' => h c' (List.mem_cons_of_mem _ hc'))]
    cases hso : lookup? node_outputs c.from_node with
    | none => simp only [buildStep, hso]
    | some so =>
      cases hsp : lookup? so c.from_port with
      | none => simp only [buildStep, hso, hsp]
      | some w =>
        simp only [buildStep, hso, hsp]
        exact lookup?_insertMap_ne _ _ _ _ (fun he => h c (List.mem_cons_self ..) he.symm)

/-- C8: when `execute` builds a node's context, an incoming connection whose
upstream node did not record a value for the named output port contributes
nothing.  First conjunct (provenance): every input present in the context
comes verbatim from some incoming connection whose upstream recorded the
value — so the engine never defaults a port to Null and raises no error on
absence (`buildInputs` is a total function into the inputs map).  Second
conjunct (absence): when no incoming connection for a port can be resolved,
that key is simply absent from the inputs mapping. -/
theorem unresolved_input_absent (g : Graph) (node_id : String)
    (node_outputs : List (String × List (String × Value))) :
    (∀ p v, lookup? (buildInputs g node_id node_outputs) p = some v →
      ∃ c ∈ g.connections, c.to_node = node_id ∧ c.to_port = p ∧
        Supplies node_outputs c v) ∧
    (∀ p, (∀ c ∈ g.connections, c.to_node = node_id → c.to_port = p →
        ∀ v, ¬ Supplies node_outputs c v) →
      lookup? (buildInputs g node_id node_outputs) p = none) := by
  constructor
  · intro p v h
    rw [buildInputs_eq_foldl] at h
    rcases buildFold_some _ _ _ _ h with hfound | hacc
    · obtain ⟨c, hc, hp, hs⟩ := hfound
      refine ⟨c, ?_, ?_, hp, hs⟩
      · exact (List.mem_filter.mp hc).1
      · have := (List.mem_filter.mp hc).2
        simpa using this
    · simp [lookup?] at hacc
  · intro p hnone
    rw [buildInputs_eq_foldl]
    cases hres : lookup? ((g.get_incoming_connections node_id).foldl
        (buildStep node_outputs) []) p with
    | none => rfl
    | some v =>
      rcases buildFold_some _ _ _ _ hres with hfound | hacc
      · obtain ⟨c, hc, hp, hs⟩ := hfound
        have hmem := (List.mem_filter.mp hc).1
        have hto : c.to_node = node_id := by
          have := (List.mem_filter.mp hc).2
          simpa using this
        exact absurd hs (hnone c hmem hto hp v)
      · simp [lookup?] at hacc

/-- C8 witness at a concrete graph: one node with a single incoming
connection whose upstream recorded no value for the named port; the input
key is absent. -/
theorem unresolved_input_absent_witness :
    lookup?
      (buildInputs
        { id := "g", name := "G", description := none,
          nodes := [("a", { id := "a", block_type := "t", config := [], position := none }),
                    ("b", { id := "b", block_type := "t", config := [], position := none })],
          connections :=
            [{ from_node := "a", from_port := "missing", to_node := "b", to_port := "x" }] }
        "b" [("a", [("present", Value.null)])]) "x" = none := by
  apply (unresolved_input_absent _ _ _).2
  intro c hc hto hport v hs
  simp only [List.mem_singleton] at hc
  subst hc
  obtain ⟨so, hso, hsp⟩ := hs
  simp [lookup?] at hso
  subst hso
  simp [lookup?] at hsp

/-- C10: when a node has several incoming connections with the same
`to_port`, the context carries exactly the value of the connection that
appears latest in the graph's connection list among those that resolve, here
stated with the later connections for that port not resolving to any other
value: `execute` inserts inputs in incoming-connection order, and a later
insertion under the same key overwrites the earlier one.  The hypotheses
split the incoming-connection list at the last connection for the port. -/
theorem duplicate_port_last_connection_wins (g : Graph) (node_id : String)
    (node_outputs : List (String × List (String × Value)))
    (A B : List Connection) (cstar : Connection) (v : Value)
    (hsplit : g.get_incoming_connections node_id = A ++ cstar :: B)
    (hlast : ∀ c ∈ B, c.to_port ≠ cstar.to_port)
    (hsup : Supplies node_outputs cstar v) :
    lookup? (buildInputs g node_id node_outputs) cstar.to_port = some v := by
  rw [buildInputs_eq_foldl, hsplit]
  rw [List.foldl_append, List.foldl_cons]
  rw [buildFold_untouched _ _ _ hlast]
  obtain ⟨so, hso, hsp⟩ := hsup
  simp only [buildStep, hso, hsp]
  exact lookup?_insertMap_self _ _ _

/-- C10 witness: two connections feed port "x" of node "b"; the context holds
the value carried by the second (later) connection. -/
theorem duplicate_port_last_connection_wins_witness :
    lookup?
      (buildInputs
        { id := "g", name := "G", description := none,
          nodes := [("a", { id := "a", block_type := "t", config := [], position := none }),
                    ("b", { id := "b", block_type := "t", config := [], position := none })],
          connections :=
            [{ from_node := "a", from_port := "p", to_node := "b", to_port := "x" },
             { from_node := "a", from_port := "q", to_node := "b", to_port := "x" }] }
        "b" [("a", [("p", Value.int 1), ("q", Value.int 2)])]) "x" = some (Value.int 2) := by
  apply duplicate_port_last_connection_wins _ _ _
    [{ from_node := "a", from_port := "p", to_node := "b", to_port := "x" }] []
    { from_node := "a", from_port := "q", to_node := "b", to_port := "x" }
  · rfl
  · intro c hc
    simp at hc
  · exact ⟨[("p", Value.int 1), ("q", Value.int 2)], rfl, rfl⟩

/-! Kahn's algorithm (`Graph::topological_sort`): invariants and
correctness.  `countIn conns R v` counts the connections into `v` whose
source node has not yet been emitted into the result list `R`: it is the
value Kahn's in-degree table holds for `v` throughout the loop. -/

/-- Connections into `v` from nodes outside `R`. -/
def countIn (conns : List Connection) (R : List String) (v : String) : Nat :=
  conns.countP (fun c => decide (c.to_node = v ∧ c.from_node ∉ R))

/-- Connections from `u` to `w` (with multiplicity). -/
def multEdges (conns : List Connection) (u w : String) : Nat :=
  conns.countP (fun c => decide (c.from_node = u ∧ c.to_node = w))

theorem mem_successors {conns : List Connection} {u w : String} :
    w ∈ successors conns u ↔ ∃ c ∈ conns, c.from_node = u ∧ c.to_node = w := by
  simp only [successors, List.mem_map, List.mem_filter, beq_iff_eq]
  constructor
  · rintro ⟨c, ⟨hc, hu⟩, hw⟩
    exact ⟨c, hc, hu, hw⟩
  · rintro ⟨c, hc, hu, hw⟩
    exact ⟨c, ⟨hc, hu⟩, hw⟩

theorem count_successors (conns : List Connection) (u w : String) :
    (successors conns u).count w = multEdges conns u w := by
  induction conns with
  | nil => rfl
  | cons c rest ih =>
    simp only [successors, multEdges, List.filter_cons, List.countP_cons] at ih ⊢
    by_cases hu : c.from_node = u <;> by_cases hw : c.to_node = w <;>
      simp [hu, hw, List.count_cons, ih]

theorem countIn_of_empty (conns : List Connection) (v : String) :
    countIn conns [] v = conns.countP (fun c => decide (c.to_node = v)) := by
  unfold countIn
  exact List.countP_congr (fun c _ => by simp)

theorem countIn_mono (conns : List Connection) {R R' : List String}
    (hsub : ∀ x ∈ R, x ∈ R') (v : String) :
    countIn conns R' v ≤ countIn conns R v := by
  unfold countIn
  apply List.countP_mono_left
  intro c _ h
  simp only [decide_eq_true_eq] at h ⊢
  exact ⟨h.1, fun hm => h.2 (hsub _ hm)⟩

theorem countIn_append_elem (conns : List Connection) (R : List String) (u v : String)
    (hu : u ∉ R) :
    countIn conns R v = countIn conns (R ++ [u]) v + multEdges conns u v := by
  unfold countIn multEdges
  induction conns with
  | nil => rfl
  | cons c rest ih =>
    rw [List.countP_cons, List.countP_cons, List.countP_cons]
    rw [ih]
    by_cases hv : c.to_node = v
    · by_cases hR : c.from_node ∈ R
      · have h3 : ¬ c.from_node = u := fun he => hu (he ▸ hR)
        simp [hv, hR, h3, List.mem_append]
      · by_cases hu2 : c.from_node = u
        · simp only [hv, hR, hu2, List.mem_append]
          simp [hu]
          omega
        · simp [hv, hR, hu2, List.mem_append]
          omega
    · simp [hv]

theorem multEdges_le_countIn (conns : List Connection) (R : List String) (u w : String)
    (hu : u ∉ R) : multEdges conns u w ≤ countIn conns R w := by
  unfold countIn multEdges
  apply List.countP_mono_left
  intro c _ h
  simp only [decide_eq_true_eq] at h ⊢
  exact ⟨h.2, fun hm => hu (h.1 ▸ hm)⟩

/-- Pigeonhole step for Kahn completeness: in an acyclic connection graph a
nonempty node set cannot have every member fed by an edge from inside the
set (otherwise following predecessors forever would close a cycle). -/
theorem no_cycle_pigeonhole {conns : List Connection} (hacyc : AcyclicConns conns)
    (S : List String) (hne : S ≠ [])
    (hpred : ∀ v ∈ S, ∃ u ∈ S, EdgeRel conns u v) : False := by
  classical
  have hTne : S.toFinset.Nonempty := by
    rcases S with _ | ⟨a, rest⟩
    · exact absurd rfl hne
    · exact ⟨a, by simp⟩
  letI : IsTrans {x // x ∈ S.toFinset}
      (fun a b => Relation.TransGen (EdgeRel conns) a.1 b.1) :=
    ⟨fun a b c hab hbc => hab.trans hbc⟩
  letI : IsIrrefl {x // x ∈ S.toFinset}
      (fun a b => Relation.TransGen (EdgeRel conns) a.1 b.1) :=
    ⟨fun a ha => hacyc a.1 ha⟩
  have hwf := Finite.wellFounded_of_trans_of_irrefl
    (α := {x // x ∈ S.toFinset})
    (fun a b => Relation.TransGen (EdgeRel conns) a.1 b.1)
  obtain ⟨a, haS⟩ := hTne
  obtain ⟨m, -, hmin⟩ := hwf.has_min Set.univ ⟨⟨a, haS⟩, trivial⟩
  obtain ⟨u, huS, hedge⟩ := hpred m.1 (List.mem_toFinset.mp m.2)
  exact hmin ⟨u, List.mem_toFinset.mpr huS⟩ trivial (Relation.TransGen.single hedge)

/-- Effect of folding `kahnStep` over a neighbor list `ws`.  Starting from a
degree table realizing `f` on `keys`, the fold subtracts each neighbor's
multiplicity in `ws` and appends to the queue exactly those neighbors whose
degree thereby reaches zero. -/
theorem kahnFold_spec (keys : List String) :
    ∀ (ws : List String) (deg : List (String × Nat)) (q : List String) (f : String → Nat),
    keysOf deg = keys →
    (∀ v ∈ keys, lookup? deg v = some (f v)) →
    (∀ w, ws.count w ≤ f w) →
    (∀ w ∈ ws, w ∈ keys) →
    ∃ deg' enq, ws.foldl kahnStep (deg, q) = (deg', q ++ enq) ∧
      keysOf deg' = keys ∧
      (∀ v ∈ keys, lookup? deg' v = some (f v - ws.count v)) ∧
      enq.Nodup ∧
      (∀ x, x ∈ enq ↔ x ∈ ws ∧ f x = ws.count x) := by
  intro ws
  induction ws with
  | nil =>
    intro deg q f h1 h2 _ _
    exact ⟨deg, [], by simp, h1, fun v hv => by simpa using h2 v hv, List.nodup_nil,
      by simp⟩
  | cons w rest ih =>
    intro deg q f h1 h2 h3 h4
    have hw_keys : w ∈ keys := h4 w (List.mem_cons_self ..)
    have hcw : (w :: rest).count w = rest.count w + 1 := List.count_cons_self ..
    have hfw_pos : rest.count w + 1 ≤ f w := hcw ▸ h3 w
    have hdeg1 : ∃ d, d = updateMap deg w (fun d => d - 1) := ⟨_, rfl⟩
    obtain ⟨deg1, hdeg1⟩ := hdeg1
    have hkeys1 : keysOf deg1 = keys := by rw [hdeg1, keysOf_updateMap, h1]
    have hlook1 : lookup? deg1 w = some (f w - 1) := by
      rw [hdeg1, lookup?_updateMap_self, h2 w hw_keys]; rfl
    have hlook1' : ∀ v ∈ keys, lookup? deg1 v =
        some (if v = w then f w - 1 else f v) := by
      intro v hv
      by_cases hvw : v = w
      · subst hvw
        rw [if_pos rfl]
        exact hlook1
      · rw [hdeg1, lookup?_updateMap_ne _ _ _ _ hvw, h2 v hv, if_neg hvw]
    have h3' : ∀ x, rest.count x ≤ (if x = w then f w - 1 else f x) := by
      intro x
      by_cases hxw : x = w
      · subst hxw; rw [if_pos rfl]; omega
      · rw [if_neg hxw, ← List.count_cons_of_ne hxw rest]
        exact h3 x
    have h4' : ∀ x ∈ rest, x ∈ keys := fun x hx => h4 x (List.mem_cons_of_mem _ hx)
    rcases Nat.eq_zero_or_pos (f w - 1) with hzero | hpos
    · -- the head neighbor reaches degree zero and is enqueued
      have hstep : kahnStep (deg, q) w = (deg1, q ++ [w]) := by
        simp only [kahnStep, ← hdeg1, hlook1, hzero]
      obtain ⟨deg', enq', heq', hk', hval', hnd', hiff'⟩ :=
        ih deg1 (q ++ [w]) (fun v => if v = w then f w - 1 else f v)
          hkeys1 hlook1' h3' h4'
      refine ⟨deg', w :: enq', ?_, hk', ?_, ?_, ?_⟩
      · rw [List.foldl_cons, hstep, heq', List.append_assoc]
        rfl
      · intro v hv
        rw [hval' v hv]
        by_cases hvw : v = w
        · subst hvw
          rw [if_pos rfl, hcw]
          congr 1
          omega
        · rw [if_neg hvw, List.count_cons_of_ne hvw rest]
      · have hwnot : w ∉ enq' := by
          intro hmem
          obtain ⟨hmr, hfr⟩ := (hiff' w).mp hmem
          rw [if_pos rfl, hzero] at hfr
          have := List.count_pos_iff.mpr hmr
          omega
        exact List.nodup_cons.mpr ⟨hwnot, hnd'⟩
      · intro x
        by_cases hxw : x = w
        · subst hxw
          constructor
          · intro _
            refine ⟨List.mem_cons_self .., ?_⟩
            rw [hcw]
            omega
          · intro _
            exact List.mem_cons_self ..
        · rw [List.mem_cons, List.mem_cons, or_iff_right hxw, or_iff_right hxw,
            List.count_cons_of_ne hxw rest]
          rw [hiff' x, if_neg hxw]
    · -- the head neighbor keeps a positive degree
      obtain ⟨m, hm⟩ : ∃ m, f w - 1 = m + 1 := ⟨f w - 2, by omega⟩
      have hstep : kahnStep (deg, q) w = (deg1, q) := by
        simp only [kahnStep, ← hdeg1, hlook1, hm]
      obtain ⟨deg', enq', heq', hk', hval', hnd', hiff'⟩ :=
        ih deg1 q (fun v => if v = w then f w - 1 else f v)
          hkeys1 hlook1' h3' h4'
      refine ⟨deg', enq', ?_, hk', ?_, hnd', ?_⟩
      · rw [List.foldl_cons, hstep, heq']
      · intro v hv
        rw [hval' v hv]
        by_cases hvw : v = w
        · subst hvw
          rw [if_pos rfl, hcw]
          congr 1
          omega
        · rw [if_neg hvw, List.count_cons_of_ne hvw rest]
      · intro x
        rw [hiff' x]
        by_cases hxw : x = w
        · subst hxw
          rw [if_pos rfl, hcw]
          constructor
          · rintro ⟨hmr, hfr⟩
            exact ⟨List.mem_cons_self .., by omega⟩
          · rintro ⟨-, hfr⟩
            have hrc : 0 < rest.count x := by omega
            exact ⟨List.count_pos_iff.mp hrc, by omega⟩
        · rw [List.mem_cons, or_iff_right hxw, if_neg hxw,
            List.count_cons_of_ne hxw rest]

/-- Emitted-order property of a (partial) Kahn result: every connection
whose target has been emitted has its source emitted strictly earlier. -/
def OrdProp (conns : List Connection) (R : List String) : Prop :=
  ∀ c ∈ conns, c.to_node ∈ R →
    c.from_node ∈ R ∧ R.indexOf c.from_node < R.indexOf c.to_node

/-- Loop invariant of Kahn's algorithm: the degree table realizes `countIn`,
emitted and queued nodes are distinct node keys, a node's pending in-degree
is zero exactly when it has been emitted or queued, and the emitted prefix
respects the connection order. -/
structure KahnInv (keys : List String) (conns : List Connection)
    (deg : List (String × Nat)) (queue result : List String) : Prop where
  keys_eq : keysOf deg = keys
  deg_val : ∀ v ∈ keys, lookup? deg v = some (countIn conns result v)
  nodup : (result ++ queue).Nodup
  mem_keys : ∀ x ∈ result ++ queue, x ∈ keys
  sched : ∀ v ∈ keys, (countIn conns result v = 0 ↔ v ∈ result ++ queue)
  ord : OrdProp conns result

theorem kahnLoop_nil (adj : String → List String) (fuel : Nat)
    (deg : List (String × Nat)) (result : List String) :
    kahnLoop adj fuel deg [] result = result := by
  cases fuel <;> rfl

theorem kahnLoop_succ (adj : String → List String) (fuel : Nat)
    (deg : List (String × Nat)) (v : String) (rest result : List String) :
    kahnLoop adj (fuel + 1) deg (v :: rest) result =
      kahnLoop adj fuel ((adj v).foldl kahnStep (deg, rest)).1
        ((adj v).foldl kahnStep (deg, rest)).2 (result ++ [v]) := rfl

theorem kahnInv_final {keys : List String} {conns : List Connection}
    {deg : List (String × Nat)} {result : List String}
    (inv : KahnInv keys conns deg [] result) :
    result.Nodup ∧ (∀ x ∈ result, x ∈ keys) ∧ OrdProp conns result ∧
      (∀ v ∈ keys, (countIn conns result v = 0 ↔ v ∈ result)) := by
  have h1 := inv.nodup
  rw [List.append_nil] at h1
  refine ⟨h1, fun x hx => inv.mem_keys x (by simp [hx]), inv.ord, fun v hv => ?_⟩
  have h2 := inv.sched v hv
  rwa [List.append_nil] at h2

theorem kahnInv_no_overflow {keys : List String} {conns : List Connection}
    {deg : List (String × Nat)} {v : String} {rest result : List String}
    (inv : KahnInv keys conns deg (v :: rest) result)
    (hlen : keys.length ≤ result.length) : False := by
  have hsub : result ⊆ keys := fun x hx => inv.mem_keys x (by simp [hx])
  have hrnd : result.Nodup := (List.nodup_append.mp inv.nodup).1
  have hsp := List.subperm_of_subset hrnd hsub
  have hperm := hsp.perm_of_length_le hlen
  have hvmem : v ∈ keys := inv.mem_keys v (by simp)
  have hvres : v ∈ result := hperm.mem_iff.mpr hvmem
  have hdisj := (List.nodup_append.mp inv.nodup).2.2
  exact hdisj hvres (List.mem_cons_self ..)

theorem kahnLoop_spec (keys : List String) (conns : List Connection)
    (hwf : ∀ c ∈ conns, c.from_node ∈ keys ∧ c.to_node ∈ keys) :
    ∀ (fuel : Nat) (deg : List (String × Nat)) (queue result : List String),
    KahnInv keys conns deg queue result →
    keys.length ≤ fuel + result.length →
    (kahnLoop (successors conns) fuel deg queue result).Nodup ∧
    (∀ x ∈ kahnLoop (successors conns) fuel deg queue result, x ∈ keys) ∧
    OrdProp conns (kahnLoop (successors conns) fuel deg queue result) ∧
    (∀ v ∈ keys,
      (countIn conns (kahnLoop (successors conns) fuel deg queue result) v = 0 ↔
        v ∈ kahnLoop (successors conns) fuel deg queue result)) := by
  intro fuel
  induction fuel with
  | zero =>
    intro deg queue result inv hlen
    cases queue with
    | nil =>
      rw [kahnLoop_nil]
      exact kahnInv_final inv
    | cons v rest =>
      exact absurd (kahnInv_no_overflow inv (by omega)) not_false
  | succ fuel ih =>
    intro deg queue result inv hlen
    cases queue with
    | nil =>
      rw [kahnLoop_nil]
      exact kahnInv_final inv
    | cons v rest =>
      have hvq : v ∈ result ++ v :: rest := by simp
      have hv_keys : v ∈ keys := inv.mem_keys v hvq
      have hvnotres : v ∉ result := by
        have hdisj := (List.nodup_append.mp inv.nodup).2.2
        exact fun hr => hdisj hr (List.mem_cons_self ..)
      have hcnt0 : countIn conns result v = 0 := (inv.sched v hv_keys).mpr hvq
      have hws_keys : ∀ w ∈ successors conns v, w ∈ keys := by
        intro w hw
        obtain ⟨c, hc, hcu, hcw⟩ := mem_successors.mp hw
        exact hcw ▸ (hwf c hc).2
      have hcount : ∀ w, (successors conns v).count w ≤ countIn conns result w := by
        intro w
        rw [count_successors]
        exact multEdges_le_countIn conns result v w hvnotres
      obtain ⟨deg', enq, heq, hk', hval', hnd', hiff'⟩ :=
        kahnFold_spec keys (successors conns v) deg rest (countIn conns result)
          inv.keys_eq inv.deg_val hcount hws_keys
      rw [kahnLoop_succ, heq]
      have hnewcount : ∀ w, countIn conns (result ++ [v]) w =
          countIn conns result w - (successors conns v).count w := by
        intro w
        have h5 := countIn_append_elem conns result v w hvnotres
        rw [count_successors]
        omega
      have henq_not_old : ∀ x ∈ enq, x ∉ result ++ v :: rest := by
        intro x hx hold
        obtain ⟨hxw, hxf⟩ := (hiff' x).mp hx
        have hx_keys : x ∈ keys := hws_keys x hxw
        have hpos : 0 < (successors conns v).count x := List.count_pos_iff.mpr hxw
        have hzero := (inv.sched x hx_keys).mpr hold
        omega
      have hmem_transfer : ∀ x, x ∈ (result ++ [v]) ++ (rest ++ enq) ↔
          x ∈ result ++ v :: rest ∨ x ∈ enq := by
        intro x
        simp only [List.mem_append, List.mem_cons, List.mem_singleton]
        tauto
      refine ih deg' (rest ++ enq) (result ++ [v]) ?_ ?_
      · refine ⟨hk', ?_, ?_, ?_, ?_, ?_⟩
        · intro w hw
          rw [hnewcount w]
          exact hval' w hw
        · have hre : (result ++ [v]) ++ (rest ++ enq) = (result ++ v :: rest) ++ enq := by
            simp
          rw [hre]
          exact List.Nodup.append inv.nodup hnd'
            (fun a ha1 ha2 => henq_not_old a ha2 ha1)
        · intro x hx
          rcases (hmem_transfer x).mp hx with hold | hnew
          · exact inv.mem_keys x hold
          · exact hws_keys x ((hiff' x).mp hnew).1
        · intro w hw
          rw [hnewcount w, hmem_transfer w]
          constructor
          · intro hz
            by_cases hf0 : countIn conns result w = 0
            · exact Or.inl ((inv.sched w hw).mp hf0)
            · have hle := hcount w
              have hcw : (successors conns v).count w = countIn conns result w := by omega
              have hpos : 0 < (successors conns v).count w := by omega
              exact Or.inr ((hiff' w).mpr ⟨List.count_pos_iff.mp hpos, hcw.symm⟩)
          · intro hm
            rcases hm with hold | hnew
            · have := (inv.sched w hw).mpr hold
              omega
            · have := ((hiff' w).mp hnew).2
              omega
        · intro c hc hto
          rcases List.mem_append.mp hto with hto_res | hto_v
          · obtain ⟨hfrom, hidx⟩ := inv.ord c hc hto_res
            refine ⟨List.mem_append_left _ hfrom, ?_⟩
            rw [List.indexOf_append_of_mem hfrom, List.indexOf_append_of_mem hto_res]
            exact hidx
          · have hto_eq : c.to_node = v := List.mem_singleton.mp hto_v
            have hfrom : c.from_node ∈ result := by
              have h6 := List.countP_eq_zero.mp hcnt0 c hc
              simp only [decide_eq_true_eq, not_and, not_not] at h6
              exact h6 hto_eq
            refine ⟨List.mem_append_left _ hfrom, ?_⟩
            rw [List.indexOf_append_of_mem hfrom, hto_eq,
              List.indexOf_append_of_not_mem hvnotres, List.indexOf_cons_self]
            have := List.indexOf_lt_length.mpr hfrom
            omega
      · simp only [List.length_append, List.length_singleton]
        omega

theorem keysOf_foldl_updateMap (conns : List Connection) (m : List (String × Nat)) :
    keysOf (conns.foldl
      (fun deg conn => updateMap deg conn.to_node (fun d => d + 1)) m) = keysOf m := by
  induction conns generalizing m with
  | nil => rfl
  | cons c rest ih => rw [List.foldl_cons, ih, keysOf_updateMap]

theorem keysOf_const_zero (keys : List String) :
    keysOf (keys.map (fun k => (k, (0 : Nat)))) = keys := by
  induction keys with
  | nil => rfl
  | cons k rest ih =>
    simp only [keysOf, List.map_cons] at ih ⊢
    rw [ih]

theorem keysOf_initDegrees (keys : List String) (conns : List Connection) :
    keysOf (initDegrees keys conns) = keys := by
  unfold initDegrees
  rw [keysOf_foldl_updateMap, keysOf_const_zero]

theorem lookup?_foldl_updateMap (conns : List Connection) (m : List (String × Nat))
    (v : String) :
    lookup? (conns.foldl
        (fun deg conn => updateMap deg conn.to_node (fun d => d + 1)) m) v =
      (lookup? m v).map
        (fun d => d + conns.countP (fun c => decide (c.to_node = v))) := by
  induction conns generalizing m with
  | nil => simp
  | cons c rest ih =>
    rw [List.foldl_cons, ih, List.countP_cons]
    by_cases hc : c.to_node = v
    · rw [hc, lookup?_updateMap_self]
      cases lookup? m v <;> simp [hc]
      omega
    · rw [lookup?_updateMap_ne _ _ _ _ (fun he => hc he.symm)]
      cases lookup? m v <;> simp [hc]

theorem lookup?_const_zero (keys : List String) (v : String) (hv : v ∈ keys) :
    lookup? (keys.map (fun k => (k, (0 : Nat)))) v = some 0 := by
  induction keys with
  | nil => simp at hv
  | cons k rest ih =>
    rcases List.mem_cons.mp hv with rfl | hm
    · simp
    · by_cases hk : k = v
      · simp [hk]
      · simp [hk, ih hm]

theorem lookup?_initDegrees (keys : List String) (conns : List Connection) (v : String)
    (hv : v ∈ keys) :
    lookup? (initDegrees keys conns) v =
      some (conns.countP (fun c => decide (c.to_node = v))) := by
  unfold initDegrees
  rw [lookup?_foldl_updateMap, lookup?_const_zero keys v hv]
  simp

/-- The Kahn invariant holds for the initial degree table, seed queue and
empty result of `Graph::topological_sort`. -/
theorem kahnInit_inv (g : Graph) (hkeys_nd : (keysOf g.nodes).Nodup) :
    KahnInv (keysOf g.nodes) g.connections
      (initDegrees (keysOf g.nodes) g.connections)
      (((initDegrees (keysOf g.nodes) g.connections).filter
        (fun p => p.2 == 0)).map Prod.fst) [] := by
  have hq_sublist :
      (((initDegrees (keysOf g.nodes) g.connections).filter
        (fun p => p.2 == 0)).map Prod.fst).Sublist (keysOf g.nodes) := by
    have h1 : List.Sublist
        ((initDegrees (keysOf g.nodes) g.connections).filter (fun p => p.2 == 0))
        (initDegrees (keysOf g.nodes) g.connections) :=
      List.filter_sublist _
    have h2 := h1.map Prod.fst
    rwa [show List.map Prod.fst (initDegrees (keysOf g.nodes) g.connections) =
      keysOf (initDegrees (keysOf g.nodes) g.connections) from rfl,
      keysOf_initDegrees] at h2
  have hq_mem : ∀ x,
      x ∈ ((initDegrees (keysOf g.nodes) g.connections).filter
        (fun p => p.2 == 0)).map Prod.fst ↔
      x ∈ keysOf g.nodes ∧ countIn g.connections [] x = 0 := by
    intro x
    rw [countIn_of_empty]
    constructor
    · intro hx
      obtain ⟨p, hpf, hpx⟩ := List.mem_map.mp hx
      obtain ⟨hpmem, hp0⟩ := List.mem_filter.mp hpf
      have hx_keys : x ∈ keysOf g.nodes := by
        rw [← keysOf_initDegrees (keysOf g.nodes) g.connections]
        exact hpx ▸ List.mem_map.mpr ⟨p, hpmem, rfl⟩
      have hl := lookup?_initDegrees (keysOf g.nodes) g.connections x hx_keys
      have hnd0 : (keysOf (initDegrees (keysOf g.nodes) g.connections)).Nodup := by
        rw [keysOf_initDegrees]; exact hkeys_nd
      have hl2 : lookup? (initDegrees (keysOf g.nodes) g.connections) x = some p.2 := by
        apply lookup?_eq_some_of_mem hnd0
        obtain ⟨a, b⟩ := p
        simp only at hpx
        rw [hpx] at hpmem ⊢
        exact hpmem
      rw [hl] at hl2
      have hp0' : p.2 = 0 := by simpa using hp0
      refine ⟨hx_keys, ?_⟩
      injection hl2 with hl2
      omega
    · rintro ⟨hx_keys, hcnt⟩
      have hl := lookup?_initDegrees (keysOf g.nodes) g.connections x hx_keys
      rw [hcnt] at hl
      have hmem := mem_of_lookup?_eq_some hl
      exact List.mem_map.mpr ⟨(x, 0), List.mem_filter.mpr ⟨hmem, by simp⟩, rfl⟩
  refine ⟨keysOf_initDegrees _ _, ?_, ?_, ?_, ?_, ?_⟩
  · intro v hv
    rw [lookup?_initDegrees _ _ _ hv, countIn_of_empty]
  · rw [List.nil_append]
    exact hq_sublist.nodup hkeys_nd
  · intro x hx
    rw [List.nil_append] at hx
    exact ((hq_mem x).mp hx).1
  · intro v hv
    rw [List.nil_append]
    rw [hq_mem v]
    tauto
  · intro c hc hto
    simp at hto

/-- Correctness of `Graph::topological_sort` on well-formed acyclic graphs:
it succeeds, and the returned order lists the node keys without duplicates
(hence each node id exactly once), every node key appearing, with every
connection's source strictly before its target. -/
theorem topological_sort_spec (g : Graph) (hwf : g.WF)
    (hacyc : AcyclicConns g.connections) :
    ∃ r, g.topological_sort = .ok r ∧ r.Nodup ∧
      (∀ k, k ∈ r ↔ k ∈ keysOf g.nodes) ∧
      (∀ c ∈ g.connections, r.indexOf c.from_node < r.indexOf c.to_node) := by
  obtain ⟨hkeys_nd, hconn⟩ := hwf
  have hinv := kahnInit_inv g hkeys_nd
  obtain ⟨hnd_out, hsub_out, hord_out, hiff_out⟩ :=
    kahnLoop_spec (keysOf g.nodes) g.connections hconn (keysOf g.nodes).length
      (initDegrees (keysOf g.nodes) g.connections)
      (((initDegrees (keysOf g.nodes) g.connections).filter
        (fun p => p.2 == 0)).map Prod.fst) [] hinv (by simp)
  have hall : ∀ k ∈ keysOf g.nodes,
      k ∈ kahnLoop (successors g.connections) (keysOf g.nodes).length
        (initDegrees (keysOf g.nodes) g.connections)
        (((initDegrees (keysOf g.nodes) g.connections).filter
          (fun p => p.2 == 0)).map Prod.fst) [] := by
    by_contra hnot
    push_neg at hnot
    obtain ⟨k0, hk0_keys, hk0_not⟩ := hnot
    apply no_cycle_pigeonhole hacyc
      ((keysOf g.nodes).filter (fun k => decide (k ∉ kahnLoop (successors g.connections)
        (keysOf g.nodes).length (initDegrees (keysOf g.nodes) g.connections)
        (((initDegrees (keysOf g.nodes) g.connections).filter
          (fun p => p.2 == 0)).map Prod.fst) [])))
    · intro hS
      have : k0 ∈ ([] : List String) := by
        rw [← hS]
        exact List.mem_filter.mpr ⟨hk0_keys, by simpa using hk0_not⟩
      simp at this
    · intro x hx
      obtain ⟨hx_keys, hx_not⟩ := List.mem_filter.mp hx
      have hx_not' : x ∉ kahnLoop (successors g.connections) (keysOf g.nodes).length
          (initDegrees (keysOf g.nodes) g.connections)
          (((initDegrees (keysOf g.nodes) g.connections).filter
            (fun p => p.2 == 0)).map Prod.fst) [] := by simpa using hx_not
      have hcnt : countIn g.connections (kahnLoop (successors g.connections)
          (keysOf g.nodes).length (initDegrees (keysOf g.nodes) g.connections)
          (((initDegrees (keysOf g.nodes) g.connections).filter
            (fun p => p.2 == 0)).map Prod.fst) []) x ≠ 0 := by
        intro h0
        exact hx_not' ((hiff_out x hx_keys).mp h0)
      have hpos : 0 < countIn g.connections (kahnLoop (successors g.connections)
          (keysOf g.nodes).length (initDegrees (keysOf g.nodes) g.connections)
          (((initDegrees (keysOf g.nodes) g.connections).filter
            (fun p => p.2 == 0)).map Prod.fst) []) x := Nat.pos_of_ne_zero hcnt
      unfold countIn at hpos
      rw [List.countP_pos_iff] at hpos
      obtain ⟨c, hc, hcp⟩ := hpos
      simp only [decide_eq_true_eq] at hcp
      obtain ⟨hcto, hcfrom⟩ := hcp
      refine ⟨c.from_node, ?_, c, hc, rfl, hcto⟩
      exact List.mem_filter.mpr ⟨(hconn c hc).1, by simpa using hcfrom⟩
  refine ⟨kahnLoop (successors g.connections) (keysOf g.nodes).length
      (initDegrees (keysOf g.nodes) g.connections)
      (((initDegrees (keysOf g.nodes) g.connections).filter
        (fun p => p.2 == 0)).map Prod.fst) [], ?_, hnd_out, ?_, ?_⟩
  · have hlen : (kahnLoop (successors g.connections) (keysOf g.nodes).length
        (initDegrees (keysOf g.nodes) g.connections)
        (((initDegrees (keysOf g.nodes) g.connections).filter
          (fun p => p.2 == 0)).map Prod.fst) []).length = g.nodes.length := by
      have hperm := (List.subperm_of_subset hnd_out
        (fun x hx => hsub_out x hx)).antisymm
        (List.subperm_of_subset hkeys_nd (fun x hx => hall x hx))
      rw [hperm.length_eq]
      simp [keysOf]
    simp only [Graph.topological_sort]
    rw [if_pos hlen]
  · intro k
    exact ⟨fun hk => hsub_out k hk, fun hk => hall k hk⟩
  · intro c hc
    have hto_keys : c.to_node ∈ keysOf g.nodes := (hconn c hc).2
    exact (hord_out c hc (hall _ hto_keys)).2

/-- C1: for every graph whose connection set is acyclic (the graph being
well-formed: unique node keys and connection endpoints present, the
invariants the data model of spec section 3 maintains), `topological_sort`
succeeds and returns a sequence containing every node id of the graph
exactly once (count 1 for every node key, and nothing else appears), and
for every connection the position of its source node in that sequence is
strictly less than the position of its target node. -/
theorem topological_sort_complete_and_ordered (g : Graph) (hwf : g.WF)
    (hacyc : AcyclicConns g.connections) :
    ∃ r, g.topological_sort = .ok r ∧
      (∀ k ∈ keysOf g.nodes, r.count k = 1) ∧
      (∀ k ∈ r, k ∈ keysOf g.nodes) ∧
      (∀ c ∈ g.connections, r.indexOf c.from_node < r.indexOf c.to_node) := by
  obtain ⟨r, hok, hnd, hmem, hord⟩ := topological_sort_spec g hwf hacyc
  refine ⟨r, hok, ?_, fun k hk => (hmem k).mp hk, hord⟩
  intro k hk
  exact List.count_eq_one_of_mem hnd ((hmem k).mpr hk)

/-- Two-node chain fixture used by concrete witnesses. -/
def chainConn : Connection :=
  { from_node := "n1", from_port := "out", to_node := "n2", to_port := "in" }

/-- Two-node chain graph fixture (n1 → n2). -/
def chainGraph : Graph :=
  { id := "g", name := "G", description := none,
    nodes := [("n1", { id := "n1", block_type := "t", config := [], position := none }),
              ("n2", { id := "n2", block_type := "t", config := [], position := none })],
    connections := [chainConn] }

theorem chainGraph_wf : chainGraph.WF := by
  constructor
  · decide
  · intro c hc
    simp only [chainGraph, List.mem_singleton] at hc
    subst hc
    constructor <;> decide

theorem chainGraph_acyclic : AcyclicConns chainGraph.connections := by
  have hstep : ∀ a b, EdgeRel chainGraph.connections a b → a = "n1" ∧ b = "n2" := by
    rintro a b ⟨c, hc, hfrom, hto⟩
    simp only [chainGraph, List.mem_singleton] at hc
    subst hc
    exact ⟨hfrom.symm, hto.symm⟩
  have htg : ∀ a b, Relation.TransGen (EdgeRel chainGraph.connections) a b →
      a = "n1" ∧ b = "n2" := by
    intro a b h
    induction h with
    | single h1 => exact hstep _ _ h1
    | tail h1 h2 ih =>
      obtain ⟨ha, hb⟩ := ih
      obtain ⟨hb', hc'⟩ := hstep _ _ h2
      rw [hb] at hb'
      exact absurd hb' (by decide)
  intro u hu
  obtain ⟨h1, h2⟩ := htg u u hu
  rw [h1] at h2
  exact absurd h2 (by decide)

/-- C1 witness: the concrete two-node chain graph is well-formed and acyclic,
so the theorem applies to it. -/
theorem topological_sort_complete_and_ordered_witness :
    ∃ r, chainGraph.topological_sort = .ok r ∧
      (∀ k ∈ keysOf chainGraph.nodes, r.count k = 1) ∧
      (∀ k ∈ r, k ∈ keysOf chainGraph.nodes) ∧
      (∀ c ∈ chainGraph.connections, r.indexOf c.from_node < r.indexOf c.to_node) :=
  topological_sort_complete_and_ordered chainGraph chainGraph_wf chainGraph_acyclic

/-! Soundness of the DFS in `Graph::would_create_cycle`: when the scan
reports no cycle, the connection graph is acyclic.  The invariant tracks the
finished ("black") nodes in finishing order: each finished node's successors
finished strictly earlier, which rules out any cycle through them. -/

/-- The list `L` records finished DFS nodes in finishing order: each entry's
successors in the adjacency all appear strictly earlier in `L`. -/
def FinishOrder (adj : String → List String) (L : List String) : Prop :=
  ∀ pre x post, L = pre ++ x :: post → ∀ w ∈ adj x, w ∈ pre

/-- DFS state invariant: the recursion stack holds visited nodes, `L` lists
exactly the visited nodes off the stack, without duplicates, in finishing
order. -/
structure DfsInv (adj : String → List String) (visited stack L : List String) : Prop where
  stack_sub : ∀ x ∈ stack, x ∈ visited
  mem_iff : ∀ x, x ∈ L ↔ (x ∈ visited ∧ x ∉ stack)
  nodup : L.Nodup
  fin : FinishOrder adj L

theorem append_singleton_eq_split {α : Type} (A pre post : List α) (a x : α)
    (h : A ++ [a] = pre ++ x :: post) :
    (pre = A ∧ x = a ∧ post = []) ∨
      (∃ post', post = post' ++ [a] ∧ A = pre ++ x :: post') := by
  rcases List.eq_nil_or_concat post with rfl | ⟨post', b, rfl⟩
  · obtain ⟨h1, h2⟩ := List.append_inj' h (by simp)
    injection h2 with h2a h2b
    exact Or.inl ⟨h1.symm, h2a.symm, rfl⟩
  · simp only [List.concat_eq_append] at h ⊢
    rw [show pre ++ x :: (post' ++ [b]) = (pre ++ x :: post') ++ [b] by simp] at h
    obtain ⟨h1, h2⟩ := List.append_inj' h (by simp)
    injection h2 with h2a h2b
    subst h2a
    exact Or.inr ⟨post', rfl, h1⟩

theorem FinishOrder.append_singleton {adj : String → List String} {L : List String}
    {node : String} (hfin : FinishOrder adj L) (hsucc : ∀ w ∈ adj node, w ∈ L) :
    FinishOrder adj (L ++ [node]) := by
  intro pre x post hsplit w hw
  rcases append_singleton_eq_split L pre post node x hsplit with ⟨rfl, rfl, rfl⟩ | ⟨post', rfl, hL⟩
  · exact hsucc w hw
  · exact hfin pre x post' hL w hw

theorem hasCycleScan_true
    (recur : String → List String → List String → Bool × List String × List String)
    (ws : List String) (v s : List String) :
    ws.foldl (hasCycleScan recur) (true, v, s) = (true, v, s) := by
  induction ws with
  | nil => rfl
  | cons w rest ih => simpa [hasCycleScan] using ih

theorem hasCycle_sound (adj : String → List String) :
    ∀ (fuel : Nat) (node : String) (visited stack L v' s' : List String),
    hasCycle adj fuel node visited stack = (false, v', s') →
    DfsInv adj visited stack L →
    node ∉ visited →
    s' = stack ∧ (∀ x ∈ visited, x ∈ v') ∧
      ∃ Δ, DfsInv adj v' stack (L ++ Δ) ∧ node ∈ Δ ∧ (∀ x ∈ Δ, x ∈ v') := by
  intro fuel
  induction fuel with
  | zero =>
    intro node visited stack L v' s' heq
    simp [hasCycle] at heq
  | succ fuel ih =>
    intro node visited stack L v' s' heq hinv hnode
    have hnode_stack : node ∉ stack := fun hs => hnode (hinv.stack_sub node hs)
    -- invariant after push
    have hinv1 : DfsInv adj (node :: visited) (node :: stack) L := by
      refine ⟨?_, ?_, hinv.nodup, hinv.fin⟩
      · intro x hx
        rcases List.mem_cons.mp hx with rfl | hx'
        · exact List.mem_cons_self ..
        · exact List.mem_cons_of_mem _ (hinv.stack_sub x hx')
      · intro x
        rw [hinv.mem_iff x]
        constructor
        · rintro ⟨hxv, hxs⟩
          have hxn : x ≠ node := fun he => hnode (he ▸ hxv)
          exact ⟨List.mem_cons_of_mem _ hxv,
            fun hc => hxs ((List.mem_cons.mp hc).resolve_left hxn)⟩
        · rintro ⟨hxv, hxs⟩
          have hxn : x ≠ node := fun he => hxs (he ▸ List.mem_cons_self ..)
          exact ⟨(List.mem_cons.mp hxv).resolve_left hxn,
            fun hc => hxs (List.mem_cons_of_mem _ hc)⟩
    -- the neighbor scan
    have loop : ∀ (ws : List String) (v0 s0 L0 vr sr : List String),
        ws.foldl (hasCycleScan (hasCycle adj fuel)) (false, v0, s0) = (false, vr, sr) →
        DfsInv adj v0 s0 L0 →
        sr = s0 ∧ (∀ x ∈ v0, x ∈ vr) ∧
          ∃ Δ, DfsInv adj vr s0 (L0 ++ Δ) ∧ (∀ x ∈ Δ, x ∈ vr) ∧
            (∀ w ∈ ws, w ∈ vr ∧ w ∉ s0) := by
      intro ws
      induction ws with
      | nil =>
        intro v0 s0 L0 vr sr heq2 hinv2
        rw [List.foldl_nil] at heq2
        injection heq2 with h1 h23
        injection h23 with h2 h3
        subst h2
        subst h3
        refine ⟨rfl, fun x hx => hx, [], ?_, by simp, by simp⟩
        rw [List.append_nil]
        exact hinv2
      | cons w rest ihw =>
        intro v0 s0 L0 vr sr heq2 hinv2
        rw [List.foldl_cons] at heq2
        by_cases hwv : w ∈ v0
        · by_cases hws : w ∈ s0
          · rw [show hasCycleScan (hasCycle adj fuel) (false, v0, s0) w = (true, v0, s0) by
              simp [hasCycleScan, hwv, hws]] at heq2
            rw [hasCycleScan_true] at heq2
            simp at heq2
          · rw [show hasCycleScan (hasCycle adj fuel) (false, v0, s0) w = (false, v0, s0) by
              simp [hasCycleScan, hwv, hws]] at heq2
            obtain ⟨hsr, hmono, Δ, hinv3, hΔ, hrest⟩ := ihw v0 s0 L0 vr sr heq2 hinv2
            refine ⟨hsr, hmono, Δ, hinv3, hΔ, ?_⟩
            intro x hx
            rcases List.mem_cons.mp hx with rfl | hx'
            · exact ⟨hmono x hwv, hws⟩
            · exact hrest x hx'
        · rw [show hasCycleScan (hasCycle adj fuel) (false, v0, s0) w =
              hasCycle adj fuel w v0 s0 by simp [hasCycleScan, hwv]] at heq2
          rcases hsub : hasCycle adj fuel w v0 s0 with ⟨flag, v1, s1⟩
          cases flag
          · rw [hsub] at heq2
            obtain ⟨hs1, hmono1, Δ1, hinv3, hwΔ1, hΔ1v⟩ :=
              ih w v0 s0 L0 v1 s1 hsub hinv2 hwv
            rw [hs1] at heq2
            obtain ⟨hsr, hmono2, Δ2, hinv4, hΔ2, hrest⟩ :=
              ihw v1 s0 (L0 ++ Δ1) vr sr heq2 hinv3
            rw [List.append_assoc] at hinv4
            refine ⟨hsr, fun x hx => hmono2 x (hmono1 x hx), Δ1 ++ Δ2, hinv4, ?_, ?_⟩
            · intro x hx
              rcases List.mem_append.mp hx with hx' | hx'
              · exact hmono2 x (hΔ1v x hx')
              · exact hΔ2 x hx'
            · intro x hx
              rcases List.mem_cons.mp hx with rfl | hx'
              · exact (hinv4.mem_iff x).mp
                  (List.mem_append_right L0 (List.mem_append_left Δ2 hwΔ1))
              · exact hrest x hx'
          · rw [hsub] at heq2
            rw [hasCycleScan_true] at heq2
            simp at heq2
    -- unfold one layer of hasCycle
    rw [show hasCycle adj (fuel + 1) node visited stack =
        (match (adj node).foldl (hasCycleScan (hasCycle adj fuel))
            (false, node :: visited, node :: stack) with
          | (true, v, s) => (true, v, s)
          | (false, v, s) => (false, v, s.filter (fun x => x != node))) from rfl] at heq
    rcases hscan : (adj node).foldl (hasCycleScan (hasCycle adj fuel))
        (false, node :: visited, node :: stack) with ⟨flag, v2, s2⟩
    rw [hscan] at heq
    cases flag
    · simp only [Prod.mk.injEq] at heq
      obtain ⟨-, hv', hs'⟩ := heq
      obtain ⟨hs2, hmono, Δ, hinv2, hΔv, hws⟩ :=
        loop (adj node) (node :: visited) (node :: stack) L v2 s2 hscan hinv1
      subst hs2
      have hstack_eq : (node :: stack).filter (fun x => x != node) = stack := by
        rw [List.filter_cons, if_neg (by simp)]
        apply List.filter_eq_self.mpr
        intro x hx
        rw [bne_iff_ne]
        exact fun he => hnode_stack (he ▸ hx)
      refine ⟨by rw [← hs', hstack_eq], ?_, ?_⟩
      · intro x hx
        rw [← hv']
        exact hmono x (List.mem_cons_of_mem _ hx)
      · refine ⟨Δ ++ [node], ?_, by simp, ?_⟩
        · -- re-establish the invariant after the pop
          have hnodeL : node ∉ L ++ Δ := by
            intro hc
            have := (hinv2.mem_iff node).mp hc
            exact this.2 (List.mem_cons_self ..)
          rw [← List.append_assoc]
          refine ⟨?_, ?_, ?_, ?_⟩
          · intro x hx
            rw [← hv']
            exact hmono x (List.mem_cons_of_mem _ (hinv.stack_sub x hx))
          · intro x
            by_cases hxn : x = node
            · subst hxn
              simp only [List.mem_append, List.mem_singleton, or_true, true_iff]
              rw [← hv']
              exact ⟨hmono x (List.mem_cons_self ..), hnode_stack⟩
            · rw [List.mem_append, List.mem_singleton, or_iff_left hxn,
                hinv2.mem_iff x, ← hv']
              constructor
              · rintro ⟨hxv, hxs⟩
                exact ⟨hxv, fun hc => hxs (List.mem_cons_of_mem _ hc)⟩
              · rintro ⟨hxv, hxs⟩
                exact ⟨hxv, fun hc => hxs ((List.mem_cons.mp hc).resolve_left hxn)⟩
          · rw [List.nodup_append]
            exact ⟨hinv2.nodup, List.nodup_singleton _,
              fun a ha hb => hnodeL ((List.mem_singleton.mp hb) ▸ ha)⟩
          · apply hinv2.fin.append_singleton
            intro w hw
            obtain ⟨hwv, hwns⟩ := hws w hw
            exact (hinv2.mem_iff w).mpr ⟨hwv, hwns⟩
        · intro x hx
          rcases List.mem_append.mp hx with hx' | hx'
          · rw [← hv']; exact hΔv x hx'
          · rw [← hv', List.mem_singleton.mp hx']
            exact hmono node (List.mem_cons_self ..)
    · simp at heq

theorem hasCycleOuter_sound (adj : String → List String) (fuel : Nat) :
    ∀ (keys visited L : List String),
    hasCycleOuter adj fuel keys visited [] = false →
    DfsInv adj visited [] L →
    ∃ v' L', DfsInv adj v' [] L' ∧ (∀ x ∈ L, x ∈ L') ∧ (∀ k ∈ keys, k ∈ L') := by
  intro keys
  induction keys with
  | nil =>
    intro visited L _ hinv
    exact ⟨visited, L, hinv, fun x hx => hx, by simp⟩
  | cons k rest ihk =>
    intro visited L heq hinv
    rw [show hasCycleOuter adj fuel (k :: rest) visited [] =
        (if k ∈ visited then hasCycleOuter adj fuel rest visited []
         else match hasCycle adj fuel k visited [] with
          | (true, _, _) => true
          | (false, v, s) => hasCycleOuter adj fuel rest v s) from rfl] at heq
    by_cases hk : k ∈ visited
    · rw [if_pos hk] at heq
      obtain ⟨v', L', hinv', hsub, hkeys⟩ := ihk visited L heq hinv
      refine ⟨v', L', hinv', hsub, ?_⟩
      intro x hx
      rcases List.mem_cons.mp hx with rfl | hx'
      · exact hsub x ((hinv.mem_iff x).mpr ⟨hk, by simp⟩)
      · exact hkeys x hx'
    · rw [if_neg hk] at heq
      rcases hsub : hasCycle adj fuel k visited [] with ⟨flag, v1, s1⟩
      rw [hsub] at heq
      cases flag
      · obtain ⟨hs1, hmono, Δ, hinv2, hkΔ, hΔv⟩ :=
          hasCycle_sound adj fuel k visited [] L v1 s1 hsub hinv hk
        subst hs1
        obtain ⟨v', L', hinv', hsub', hkeys⟩ := ihk v1 (L ++ Δ) heq hinv2
        refine ⟨v', L', hinv', fun x hx => hsub' x (List.mem_append_left _ hx), ?_⟩
        intro x hx
        rcases List.mem_cons.mp hx with rfl | hx'
        · exact hsub' x (List.mem_append_right _ hkΔ)
        · exact hkeys x hx'
      · simp at heq

/-- A duplicate-free finish-order list over the connection adjacency admits
no cycle whose nodes' sources all appear in it: the index strictly
decreases along every connection. -/
theorem finishOrder_acyclic (conns : List Connection) (L : List String)
    (hnd : L.Nodup) (hfin : FinishOrder (successors conns) L)
    (hsrc : ∀ c ∈ conns, c.from_node ∈ L) :
    AcyclicConns conns := by
  have hrank : ∀ u v, EdgeRel conns u v → u ∈ L →
      v ∈ L ∧ L.indexOf v < L.indexOf u := by
    intro u v hedge huL
    obtain ⟨pre, post, hsplit⟩ := List.append_of_mem huL
    have hvadj : v ∈ successors conns u := mem_successors.mpr hedge
    have hvpre : v ∈ pre := hfin pre u post hsplit v hvadj
    have hunotpre : u ∉ pre := by
      have := hsplit ▸ hnd
      rw [List.nodup_append] at this
      exact fun hc => this.2.2 hc (List.mem_cons_self ..)
    constructor
    · rw [hsplit]
      exact List.mem_append_left _ hvpre
    · rw [hsplit, List.indexOf_append_of_mem hvpre,
        List.indexOf_append_of_not_mem hunotpre, List.indexOf_cons_self]
      have := List.indexOf_lt_length.mpr hvpre
      omega
  have htg : ∀ u v, Relation.TransGen (EdgeRel conns) u v →
      u ∈ L ∧ v ∈ L ∧ L.indexOf v < L.indexOf u := by
    intro u v h
    induction h with
    | single h1 =>
      rename_i b
      obtain ⟨c, hc, hcf, hct⟩ := h1
      have huL : u ∈ L := hcf ▸ hsrc c hc
      obtain ⟨hvL, hlt⟩ := hrank u b ⟨c, hc, hcf, hct⟩ huL
      exact ⟨huL, hvL, hlt⟩
    | tail h1 h2 ih =>
      rename_i b c2
      obtain ⟨huL, hbL, hlt1⟩ := ih
      obtain ⟨hvL, hlt2⟩ := hrank b c2 h2 hbL
      exact ⟨huL, hvL, by omega⟩
  intro u hu
  obtain ⟨-, -, hlt⟩ := htg u u hu
  omega

/-- Soundness of the outer DFS driver: a `false` verdict on a connection
list whose sources are all among the scanned keys implies acyclicity. -/
theorem hasCycleOuter_false_acyclic (conns : List Connection) (keys : List String)
    (hfrom : ∀ c ∈ conns, c.from_node ∈ keys) (fuel : Nat)
    (h : hasCycleOuter (successors conns) fuel keys [] [] = false) :
    AcyclicConns conns := by
  have hinv0 : DfsInv (successors conns) [] [] [] := by
    refine ⟨by simp, by simp, List.nodup_nil, ?_⟩
    intro pre x post hsplit
    exact absurd hsplit.symm (by simp)
  obtain ⟨v', L', hinv', -, hkeys⟩ :=
    hasCycleOuter_sound (successors conns) fuel keys [] [] h hinv0
  exact finishOrder_acyclic conns L' hinv'.nodup hinv'.fin
    (fun c hc => hkeys _ (hfrom c hc))

/-! Mutation API: success characterizations and invariant preservation. -/

theorem keysOf_insertMap_of_not_mem {α : Type} (m : List (String × α)) (k : String) (v : α)
    (h : k ∉ keysOf m) : keysOf (insertMap m k v) = keysOf m ++ [k] := by
  induction m with
  | nil => rfl
  | cons p rest ih =>
    obtain ⟨k', w⟩ := p
    simp only [keysOf, List.map_cons, List.mem_cons, not_or] at h
    obtain ⟨h1, h2⟩ := h
    show keysOf (if k' = k then (k, v) :: rest else (k', w) :: insertMap rest k v) = _
    rw [if_neg (fun he => h1 he.symm)]
    simp only [keysOf, List.map_cons]
    rw [show List.map Prod.fst (insertMap rest k v) = keysOf (insertMap rest k v) from rfl,
      ih h2]
    rfl

theorem add_node_ok {g g' : Graph} {n : Node} (h : g.add_node n = .ok g') :
    (lookup? g.nodes n.id).isSome = false ∧
    g' = { g with nodes := insertMap g.nodes n.id n } := by
  unfold Graph.add_node at h
  by_cases hc : (lookup? g.nodes n.id).isSome
  · rw [if_pos hc] at h
    exact absurd h (by simp)
  · rw [if_neg hc] at h
    injection h with h
    exact ⟨by simpa using hc, h.symm⟩

theorem remove_node_ok {g g' : Graph} {i : String} (h : g.remove_node i = .ok g') :
    (lookup? g.nodes i).isSome = true ∧
    g' = { g with
      connections :=
        g.connections.filter (fun c => c.from_node != i && c.to_node != i),
      nodes := removeMap g.nodes i } := by
  unfold Graph.remove_node at h
  by_cases hc : (lookup? g.nodes i).isSome
  · rw [if_pos hc] at h
    injection h with h
    exact ⟨hc, h.symm⟩
  · rw [if_neg hc] at h
    exact absurd h (by simp)

theorem add_connection_ok {g g' : Graph} {c : Connection}
    (h : g.add_connection c = .ok g') :
    (lookup? g.nodes c.from_node).isSome = true ∧
    (lookup? g.nodes c.to_node).isSome = true ∧
    hasCycleOuter (successors (g.connections ++ [c])) (dfsFuel (g.connections ++ [c]))
      (keysOf g.nodes) [] [] = false ∧
    g' = { g with connections := g.connections ++ [c] } := by
  unfold Graph.add_connection at h
  by_cases h1 : (lookup? g.nodes c.from_node).isNone
  · rw [if_pos h1] at h
    exact absurd h (by simp)
  · rw [if_neg h1] at h
    by_cases h2 : (lookup? g.nodes c.to_node).isNone
    · rw [if_pos h2] at h
      exact absurd h (by simp)
    · rw [if_neg h2] at h
      simp only [Graph.would_create_cycle] at h
      cases hB : hasCycleOuter (successors (g.connections ++ [c]))
          (dfsFuel (g.connections ++ [c])) (keysOf g.nodes) [] [] with
      | true =>
        rw [hB] at h
        exact absurd h (by simp)
      | false =>
        rw [hB] at h
        injection h with h
        refine ⟨?_, ?_, rfl, h.symm⟩
        · cases hx : lookup? g.nodes c.from_node with
          | none =>
            rw [hx] at h1
            exact absurd rfl h1
          | some x => simp
        · cases hx : lookup? g.nodes c.to_node with
          | none =>
            rw [hx] at h2
            exact absurd rfl h2
          | some x => simp

theorem wf_acyclic_add_node {g g' : Graph} {n : Node} (h : g.add_node n = .ok g')
    (hwf : g.WF) (hac : AcyclicConns g.connections) :
    g'.WF ∧ AcyclicConns g'.connections := by
  obtain ⟨habs, hg⟩ := add_node_ok h
  subst hg
  have hnot : n.id ∉ keysOf g.nodes := by
    rw [← lookup?_eq_none_iff]
    cases hx : lookup? g.nodes n.id
    · rfl
    · rw [hx] at habs; simp at habs
  refine ⟨⟨?_, ?_⟩, hac⟩
  · show (keysOf (insertMap g.nodes n.id n)).Nodup
    rw [keysOf_insertMap_of_not_mem _ _ _ hnot, List.nodup_append]
    exact ⟨hwf.1, List.nodup_singleton _,
      fun a ha hb => hnot ((List.mem_singleton.mp hb) ▸ ha)⟩
  · intro c hc
    obtain ⟨h1, h2⟩ := hwf.2 c hc
    rw [show keysOf (insertMap g.nodes n.id n) = keysOf g.nodes ++ [n.id] from
      keysOf_insertMap_of_not_mem _ _ _ hnot]
    exact ⟨List.mem_append_left _ h1, List.mem_append_left _ h2⟩

theorem wf_acyclic_remove_node {g g' : Graph} {i : String}
    (h : g.remove_node i = .ok g') (hwf : g.WF) (hac : AcyclicConns g.connections) :
    g'.WF ∧ AcyclicConns g'.connections := by
  obtain ⟨hsome, hg⟩ := remove_node_ok h
  subst hg
  constructor
  · refine ⟨nodup_keysOf_removeMap _ _ hwf.1, ?_⟩
    intro c hc
    obtain ⟨hcmem, hcb⟩ := List.mem_filter.mp hc
    simp only [Bool.and_eq_true, bne_iff_ne] at hcb
    obtain ⟨h1, h2⟩ := hwf.2 c hcmem
    exact ⟨(mem_keysOf_removeMap _ _ _).mpr ⟨h1, hcb.1⟩,
      (mem_keysOf_removeMap _ _ _).mpr ⟨h2, hcb.2⟩⟩
  · exact AcyclicConns_mono (fun c hc => (List.mem_filter.mp hc).1) hac

theorem wf_acyclic_add_connection {g g' : Graph} {c : Connection}
    (h : g.add_connection c = .ok g') (hwf : g.WF)
    (hac : AcyclicConns g.connections) :
    g'.WF ∧ AcyclicConns g'.connections := by
  obtain ⟨h1, h2, h3, hg⟩ := add_connection_ok h
  subst hg
  have hfrom_all : ∀ c' ∈ g.connections ++ [c], c'.from_node ∈ keysOf g.nodes := by
    intro c' hc'
    rcases List.mem_append.mp hc' with hcm | hcm
    · exact (hwf.2 c' hcm).1
    · rw [List.mem_singleton.mp hcm]
      exact (lookup?_isSome_iff _ _).mp h1
  have hac' := hasCycleOuter_false_acyclic (g.connections ++ [c]) (keysOf g.nodes)
    hfrom_all _ h3
  refine ⟨⟨hwf.1, ?_⟩, hac'⟩
  intro c' hc'
  rcases List.mem_append.mp hc' with hcm | hcm
  · exact hwf.2 c' hcm
  · rw [List.mem_singleton.mp hcm]
    exact ⟨(lookup?_isSome_iff _ _).mp h1, (lookup?_isSome_iff _ _).mp h2⟩

theorem acyclicConns_nil : AcyclicConns [] := by
  have h : ∀ u v, ¬ Relation.TransGen (EdgeRel []) u v := by
    intro u v hu
    induction hu with
    | single h1 =>
      obtain ⟨c, hc, -⟩ := h1
      simp at hc
    | tail h1 h2 ih => exact ih
  exact fun u hu => h u u hu

/-- Graphs reachable from an empty graph through the successful mutations of
the Graph API (a failed call leaves the receiver untouched, so only the
successful calls change the state). -/
inductive Reachable : Graph → Prop where
  | empty (id name : String) : Reachable (Graph.new id name)
  | add_node {g g' : Graph} {n : Node} :
      Reachable g → g.add_node n = .ok g' → Reachable g'
  | remove_node {g g' : Graph} {i : String} :
      Reachable g → g.remove_node i = .ok g' → Reachable g'
  | add_connection {g g' : Graph} {c : Connection} :
      Reachable g → g.add_connection c = .ok g' → Reachable g'

theorem reachable_wf_acyclic {g : Graph} (h : Reachable g) :
    g.WF ∧ AcyclicConns g.connections := by
  induction h with
  | empty id name =>
    exact ⟨⟨List.nodup_nil, fun c hc => absurd hc (by simp [Graph.new])⟩,
      acyclicConns_nil⟩
  | add_node hr hok ih => exact wf_acyclic_add_node hok ih.1 ih.2
  | remove_node hr hok ih => exact wf_acyclic_remove_node hok ih.1 ih.2
  | add_connection hr hok ih => exact wf_acyclic_add_connection hok ih.1 ih.2

/-- C2: every graph reachable from an empty graph by any sequence of
`add_node`, `remove_node` and `add_connection` calls (the successful
mutations) has an acyclic connection set, interpreted as a directed graph
over node ids. -/
theorem reachable_graph_acyclic (g : Graph) (h : Reachable g) :
    AcyclicConns g.connections :=
  (reachable_wf_acyclic h).2

/-- Node fixture n1. -/
def nodeN1 : Node := { id := "n1", block_type := "t", config := [], position := none }

/-- Node fixture n2. -/
def nodeN2 : Node := { id := "n2", block_type := "t", config := [], position := none }

/-- C2 witness: the two-node chain graph is built by three successful API
calls from an empty graph, so its connection set is acyclic. -/
theorem reachable_graph_acyclic_witness : AcyclicConns chainGraph.connections := by
  apply reachable_graph_acyclic
  have h0 : Reachable (Graph.new "g" "G") := Reachable.empty "g" "G"
  have h1 : Reachable (Graph.mk "g" "G" none [("n1", nodeN1)] []) :=
    Reachable.add_node h0
      (show (Graph.new "g" "G").add_node nodeN1 = _ from rfl)
  have h2 : Reachable (Graph.mk "g" "G" none [("n1", nodeN1), ("n2", nodeN2)] []) :=
    Reachable.add_node h1
      (show (Graph.mk "g" "G" none [("n1", nodeN1)] []).add_node nodeN2 = _ from rfl)
  exact Reachable.add_connection h2
    (show (Graph.mk "g" "G" none [("n1", nodeN1), ("n2", nodeN2)] []).add_connection
      chainConn = _ from rfl)

theorem add_connection_reject_eq {g : Graph} {c : Connection}
    (h1 : (lookup? g.nodes c.from_node).isSome = true)
    (h2 : (lookup? g.nodes c.to_node).isSome = true)
    (hB : hasCycleOuter (successors (g.connections ++ [c]))
      (dfsFuel (g.connections ++ [c])) (keysOf g.nodes) [] [] = true) :
    g.add_connection c = .error .cycleDetected := by
  obtain ⟨x1, hx1⟩ := Option.isSome_iff_exists.mp h1
  obtain ⟨x2, hx2⟩ := Option.isSome_iff_exists.mp h2
  unfold Graph.add_connection
  rw [hx1, hx2]
  simp [Graph.would_create_cycle, hB]

/-- C5: on a well-formed acyclic graph, a candidate connection that would
close a cycle (both endpoint nodes existing) makes `add_connection` return
the cycle error — the connection list, and with it the whole graph, is the
unchanged receiver, whose `topological_sort` still succeeds — and when
either endpoint's node is absent, `add_connection` fails with a
node-not-found error naming it, again without any mutation. -/
theorem add_connection_cycle_rejection_atomic (g : Graph) (c : Connection)
    (hwf : g.WF) (hacyc : AcyclicConns g.connections) :
    ((lookup? g.nodes c.from_node).isSome = true →
      (lookup? g.nodes c.to_node).isSome = true →
      (∃ u, Relation.TransGen (EdgeRel (g.connections ++ [c])) u u) →
      g.add_connection c = .error .cycleDetected ∧
        ∃ r, g.topological_sort = .ok r) ∧
    ((lookup? g.nodes c.from_node).isNone = true →
      g.add_connection c = .error (.nodeNotFound c.from_node)) ∧
    ((lookup? g.nodes c.from_node).isSome = true →
      (lookup? g.nodes c.to_node).isNone = true →
      g.add_connection c = .error (.nodeNotFound c.to_node)) := by
  refine ⟨?_, ?_, ?_⟩
  · intro h1 h2 hcyc
    have hfrom_all : ∀ c' ∈ g.connections ++ [c], c'.from_node ∈ keysOf g.nodes := by
      intro c' hc'
      rcases List.mem_append.mp hc' with hcm | hcm
      · exact (hwf.2 c' hcm).1
      · rw [List.mem_singleton.mp hcm]
        exact (lookup?_isSome_iff _ _).mp h1
    have hB : hasCycleOuter (successors (g.connections ++ [c]))
        (dfsFuel (g.connections ++ [c])) (keysOf g.nodes) [] [] = true := by
      cases hB0 : hasCycleOuter (successors (g.connections ++ [c]))
          (dfsFuel (g.connections ++ [c])) (keysOf g.nodes) [] [] with
      | false =>
        have hac := hasCycleOuter_false_acyclic (g.connections ++ [c])
          (keysOf g.nodes) hfrom_all _ hB0
        obtain ⟨u, hu⟩ := hcyc
        exact absurd hu (hac u)
      | true => rfl
    refine ⟨add_connection_reject_eq h1 h2 hB, ?_⟩
    obtain ⟨r, hr, -⟩ := topological_sort_spec g hwf hacyc
    exact ⟨r, hr⟩
  · intro h1
    unfold Graph.add_connection
    rw [if_pos h1]
  · intro h1 h2
    have h1' : ¬ (lookup? g.nodes c.from_node).isNone = true := by
      cases hx : lookup? g.nodes c.from_node with
      | none => rw [hx] at h1; simp at h1
      | some x => simp
    unfold Graph.add_connection
    rw [if_neg h1', if_pos h2]

/-- Reverse connection fixture (n2 → n1), closing a cycle in the chain. -/
def revConn : Connection :=
  { from_node := "n2", from_port := "out", to_node := "n1", to_port := "in" }

/-- C5 witness: adding the reverse connection to the two-node chain is
rejected with the cycle error, and the chain still sorts. -/
theorem add_connection_cycle_rejection_atomic_witness :
    chainGraph.add_connection revConn = .error .cycleDetected ∧
      ∃ r, chainGraph.topological_sort = .ok r := by
  refine (add_connection_cycle_rejection_atomic chainGraph revConn
    chainGraph_wf chainGraph_acyclic).1 rfl rfl ?_
  exact ⟨"n1", @Relation.TransGen.tail String
    (EdgeRel (chainGraph.connections ++ [revConn])) "n1" "n2" "n1"
    (Relation.TransGen.single ⟨chainConn, by decide, rfl, rfl⟩)
    ⟨revConn, by decide, rfl, rfl⟩⟩

/-- C7: `remove_node` fails with a node-not-found error when no node with
the id exists (leaving the graph unchanged — the receiver is untouched on
the error path); otherwise it removes the node and every connection
referencing the id as either endpoint, so that no remaining connection
mentions the id, and a subsequent `topological_sort` of the resulting graph
succeeds without referencing the id. -/
theorem remove_node_cascades (g : Graph) (node_id : String)
    (hwf : g.WF) (hacyc : AcyclicConns g.connections) :
    ((lookup? g.nodes node_id).isNone = true →
      g.remove_node node_id = .error (.nodeNotFound node_id)) ∧
    ((lookup? g.nodes node_id).isSome = true →
      ∃ g', g.remove_node node_id = .ok g' ∧
        (∀ c ∈ g'.connections, c.from_node ≠ node_id ∧ c.to_node ≠ node_id) ∧
        ∃ r, g'.topological_sort = .ok r ∧ node_id ∉ r) := by
  constructor
  · intro h1
    have h1' : ¬ (lookup? g.nodes node_id).isSome = true := by
      cases hx : lookup? g.nodes node_id with
      | none => simp
      | some x => rw [hx] at h1; simp at h1
    unfold Graph.remove_node
    rw [if_neg h1']
  · intro h1
    have hok : g.remove_node node_id = .ok { g with
        connections :=
          g.connections.filter (fun c => c.from_node != node_id && c.to_node != node_id),
        nodes := removeMap g.nodes node_id } := by
      unfold Graph.remove_node
      rw [if_pos h1]
    obtain ⟨hwf', hac'⟩ := wf_acyclic_remove_node hok hwf hacyc
    obtain ⟨r, hr, -, hmem, -⟩ := topological_sort_spec _ hwf' hac'
    refine ⟨_, hok, ?_, r, hr, ?_⟩
    · intro c hc
      obtain ⟨-, hcb⟩ := List.mem_filter.mp hc
      simp only [Bool.and_eq_true, bne_iff_ne] at hcb
      exact hcb
    · intro hmem_r
      have h2 := (hmem node_id).mp hmem_r
      have h3 := (mem_keysOf_removeMap g.nodes node_id node_id).mp h2
      exact h3.2 rfl

/-- C7 witness: removing n1 from the two-node chain cascades to its
connection and the remaining graph sorts without n1. -/
theorem remove_node_cascades_witness :
    ∃ g', chainGraph.remove_node "n1" = .ok g' ∧
      (∀ c ∈ g'.connections, c.from_node ≠ "n1" ∧ c.to_node ≠ "n1") ∧
      ∃ r, g'.topological_sort = .ok r ∧ "n1" ∉ r :=
  (remove_node_cascades chainGraph "n1" chainGraph_wf chainGraph_acyclic).2 rfl

/-! Engine execution: abort on block failure (C3). -/

theorem execNodes_cons (e : Engine) (g : Graph) (a : String) (rest : List String)
    (outs : List (String × List (String × Value))) :
    e.execNodes g (a :: rest) outs =
      match lookup? g.nodes a with
      | none => .error (.nodeNotFound a)
      | some node =>
        match lookup? e.blocks node.block_type with
        | none => .error (.graph ("Block type '" ++ node.block_type ++ "' not found"))
        | some block =>
          match block.execute
              { inputs := buildInputs g a outs, config := node.config } with
          | .error err =>
            .error (.blockExecution ("Node '" ++ a ++ "': " ++ err.message))
          | .ok outputs => e.execNodes g rest (insertMap outs a outputs) := rfl

theorem execNodes_append (e : Engine) (g : Graph) (A B : List String) :
    ∀ outs, e.execNodes g (A ++ B) outs =
      match e.execNodes g A outs with
      | .ok m => e.execNodes g B m
      | .error err => .error err := by
  induction A with
  | nil => intro outs; rfl
  | cons a rest ih =>
    intro outs
    rw [List.cons_append, execNodes_cons, execNodes_cons]
    split
    · rfl
    · split
      · rfl
      · split
        · rfl
        · exact ih _

/-- Divide-by-zero scenario graph: two constants (10.0 and 0.0) feeding a
divide node. -/
def divideGraph : Graph :=
  { id := "gdiv", name := "Divide graph", description := none,
    nodes :=
      [("c10", { id := "c10", block_type := "core.constant", config := [("value", Value.float 10)], position := none }),
       ("c0", { id := "c0", block_type := "core.constant", config := [("value", Value.float 0)], position := none }),
       ("div", { id := "div", block_type := "math.divide", config := [], position := none })],
    connections :=
      [{ from_node := "c10", from_port := "value", to_node := "div", to_port := "a" },
       { from_node := "c0", from_port := "value", to_node := "div", to_port := "b" }] }

/-- Engine with the constant and divide blocks registered and the scenario
graph loaded. -/
def divideEngine : Engine :=
  { blocks := [("core.constant", ConstantBlock), ("math.divide", DivideBlock)],
    graphs := [("gdiv", divideGraph)] }

/-- C3: if during `execute` a node's block execute call fails (the earlier
nodes of the execution order having succeeded), the whole execution returns
an error wrapping the block's error with the offending node's id, and the
caller receives no outputs for any node — the return value is the error
alone, discarding the outputs computed upstream; in particular, the divide
node wired to resolved inputs (10.0, 0.0) makes `execute` fail this way. -/
theorem execute_aborts_on_block_failure :
    (∀ (e : Engine) (g : Graph) (pre : List String) (node_id : String)
      (post : List String) (m : List (String × List (String × Value)))
      (node : Node) (block : Block) (err : CircuitError),
      g.topological_sort = .ok (pre ++ node_id :: post) →
      e.execNodes g pre [] = .ok m →
      lookup? g.nodes node_id = some node →
      lookup? e.blocks node.block_type = some block →
      block.execute { inputs := buildInputs g node_id m, config := node.config } =
        .error err →
      e.execute g =
        .error (.blockExecution ("Node '" ++ node_id ++ "': " ++ err.message)) ∧
      ∀ m', e.execute g ≠ .ok m') ∧
    divideEngine.execute divideGraph =
      .error (.blockExecution "Node 'div': Block execution error: Division by zero") ∧
    (∀ m', divideEngine.execute divideGraph ≠ .ok m') := by
  refine ⟨?_, ?_, ?_⟩
  · intro e g pre node_id post m node block err hsort hpre hnode hblock hfail
    have hexec : e.execute g =
        .error (.blockExecution ("Node '" ++ node_id ++ "': " ++ err.message)) := by
      simp only [Engine.execute, hsort, execNodes_append, hpre, execNodes_cons,
        hnode, hblock, hfail]
    exact ⟨hexec, fun m' hcontra => by rw [hexec] at hcontra; exact absurd hcontra (by simp)⟩
  · rfl
  · intro m' hcontra
    rw [show divideEngine.execute divideGraph =
      .error (.blockExecution "Node 'div': Block execution error: Division by zero")
      from rfl] at hcontra
    exact absurd hcontra (by simp)

/-- C3 witness: the general first-failure statement applied to the concrete
divide scenario (execution order c10, c0, div; the constants succeed and the
divide block fails on a zero divisor). -/
theorem execute_aborts_on_block_failure_witness :
    divideEngine.execute divideGraph =
      .error (.blockExecution ("Node '" ++ "div" ++ "': " ++
        (CircuitError.blockExecution "Division by zero").message)) ∧
    ∀ m', divideEngine.execute divideGraph ≠ .ok m' :=
  (execute_aborts_on_block_failure).1 divideEngine divideGraph
    ["c10", "c0"] "div" []
    [("c10", [("value", Value.float 10)]), ("c0", [("value", Value.float 0)])]
    { id := "div", block_type := "math.divide", config := [], position := none }
    DivideBlock (.blockExecution "Division by zero") rfl rfl rfl rfl rfl

/-! All-or-nothing graph loading (C4). -/

/-- Empty graph fixture with id "G". -/
def g0Empty : Graph :=
  { id := "G", name := "Old", description := none, nodes := [], connections := [] }

/-- Graph fixture with id "G" holding one node of unregistered block type. -/
def gBadNode : Graph :=
  { id := "G", name := "New", description := none,
    nodes := [("x", { id := "x", block_type := "nope", config := [], position := none })],
    connections := [] }

/-- C4 counterexample: the claim's conclusion that after a failed
`load_graph` the graph's id "does not subsequently appear in list_graphs"
is false as a universal statement.  Loading an empty graph with id G into a
fresh engine succeeds; then loading a second graph with the same id G and
an unregistered block type fails with the unknown-block-type error, the
table is untouched, yet G does appear in `list_graphs` (the old graph). -/
theorem load_graph_failure_can_leave_id_listed :
    ∃ e1, Engine.new.load_graph g0Empty = .ok e1 ∧
      e1.load_graph gBadNode = .error (.graph "Unknown block type: nope") ∧
      gBadNode.id ∈ (e1.load_graph_state gBadNode).list_graphs := by
  refine ⟨{ blocks := [], graphs := [("G", g0Empty)] }, rfl, rfl, ?_⟩
  decide

/-- C4 (amended): `load_graph` fails with an "unknown block type" error
whenever some node's `block_type` is not in the registry, and the engine's
graph table is unchanged — so the graph's id appears in `list_graphs`
afterwards exactly when it already appeared before the call (in particular
not at all when it was absent before); if every node's `block_type` is
registered, the graph is inserted keyed by its id, overwriting any prior
graph with the same id. -/
theorem load_graph_all_or_nothing (e : Engine) (g : Graph) :
    ((∃ p ∈ g.nodes, (lookup? e.blocks p.2.block_type).isNone = true) →
      (∃ bt, (lookup? e.blocks bt).isNone = true ∧
        (∃ p ∈ g.nodes, p.2.block_type = bt) ∧
        e.load_graph g = .error (.graph ("Unknown block type: " ++ bt))) ∧
      e.load_graph_state g = e ∧
      (g.id ∈ (e.load_graph_state g).list_graphs ↔ g.id ∈ e.list_graphs)) ∧
    ((∀ p ∈ g.nodes, (lookup? e.blocks p.2.block_type).isSome = true) →
      e.load_graph g = .ok { e with graphs := insertMap e.graphs g.id g } ∧
      lookup? (e.load_graph_state g).graphs g.id = some g) := by
  constructor
  · intro hmissing
    have hfind : (g.nodes.find?
        (fun p => (lookup? e.blocks p.2.block_type).isNone)).isSome = true := by
      rw [List.find?_isSome]
      obtain ⟨p, hp, hn⟩ := hmissing
      exact ⟨p, hp, hn⟩
    obtain ⟨p0, hp0⟩ := Option.isSome_iff_exists.mp hfind
    have hp0pred := List.find?_some hp0
    have herr : e.load_graph g =
        .error (.graph ("Unknown block type: " ++ p0.2.block_type)) := by
      unfold Engine.load_graph
      rw [hp0]
    have hstate : e.load_graph_state g = e := by
      unfold Engine.load_graph_state
      rw [herr]
    exact ⟨⟨p0.2.block_type, hp0pred, ⟨p0, List.mem_of_find?_eq_some hp0, rfl⟩, herr⟩,
      hstate, by rw [hstate]⟩
  · intro hall
    have hfind : g.nodes.find?
        (fun p => (lookup? e.blocks p.2.block_type).isNone) = none := by
      rw [List.find?_eq_none]
      intro p hp
      have := hall p hp
      cases hx : lookup? e.blocks p.2.block_type with
      | none => rw [hx] at this; simp at this
      | some b => simp
    have hok : e.load_graph g = .ok { e with graphs := insertMap e.graphs g.id g } := by
      unfold Engine.load_graph
      rw [hfind]
    refine ⟨hok, ?_⟩
    unfold Engine.load_graph_state
    rw [hok]
    exact lookup?_insertMap_self _ _ _

/-- C4 witness for the amended theorem: a fresh engine rejects the graph
with the unregistered block type and its table stays empty. -/
theorem load_graph_all_or_nothing_witness :
    Engine.new.load_graph_state gBadNode = Engine.new ∧
      (gBadNode.id ∈ (Engine.new.load_graph_state gBadNode).list_graphs ↔
        gBadNode.id ∈ Engine.new.list_graphs) := by
  have h := (load_graph_all_or_nothing Engine.new gBadNode).1
    ⟨("x", { id := "x", block_type := "nope", config := [], position := none }),
      List.mem_singleton.mpr rfl, rfl⟩
  exact ⟨h.2.1, h.2.2⟩

/-! Execution determinism (C6).  Rust's `HashMap` iteration order is
arbitrary but fixed per map instance, so two `execute_graph` calls on the
same engine state walk the nodes identically; the embedding proves the
stronger fact that the resulting node-output mapping does not depend on
that order at all: executing along any valid topological order of the
graph produces the same mapping. -/

/-- A valid execution order of a graph: every node key exactly once, and
every connection's source strictly before its target. -/
def ValidOrder (g : Graph) (L : List String) : Prop :=
  L.Nodup ∧ (∀ k, k ∈ L ↔ k ∈ keysOf g.nodes) ∧
    ∀ c ∈ g.connections, L.indexOf c.from_node < L.indexOf c.to_node

theorem mem_left_of_indexOf_lt {L A B : List String} {u v : String} (hnd : L.Nodup)
    (hsplit : L = A ++ v :: B) (hlt : L.indexOf u < L.indexOf v) : u ∈ A := by
  have hvA : v ∉ A := by
    rw [hsplit, List.nodup_append] at hnd
    exact fun hc => hnd.2.2 hc (List.mem_cons_self ..)
  have hidxv : L.indexOf v = A.length := by
    rw [hsplit, List.indexOf_append_of_not_mem hvA, List.indexOf_cons_self]
    omega
  by_contra huA
  have hge : A.length ≤ L.indexOf u := by
    rw [hsplit, List.indexOf_append_of_not_mem huA]
    omega
  omega

/-- Every successful `topological_sort` result is a valid order (success
alone forces completeness; no acyclicity hypothesis is needed). -/
theorem topological_sort_valid (g : Graph) (hwf : g.WF) (L : List String)
    (h : g.topological_sort = .ok L) : ValidOrder g L := by
  obtain ⟨hkeys_nd, hconn⟩ := hwf
  obtain ⟨hnd_out, hsub_out, hord_out, -⟩ :=
    kahnLoop_spec (keysOf g.nodes) g.connections hconn (keysOf g.nodes).length
      (initDegrees (keysOf g.nodes) g.connections)
      (((initDegrees (keysOf g.nodes) g.connections).filter
        (fun p => p.2 == 0)).map Prod.fst) [] (kahnInit_inv g hkeys_nd) (by simp)
  simp only [Graph.topological_sort] at h
  by_cases hlen : (kahnLoop (successors g.connections) (keysOf g.nodes).length
      (initDegrees (keysOf g.nodes) g.connections)
      (((initDegrees (keysOf g.nodes) g.connections).filter
        (fun p => p.2 == 0)).map Prod.fst) []).length = g.nodes.length
  · rw [if_pos hlen] at h
    injection h with h
    subst h
    have hkeyslen : (keysOf g.nodes).length = g.nodes.length := by simp [keysOf]
    have hperm := (List.subperm_of_subset hnd_out
        (fun x hx => hsub_out x hx)).perm_of_length_le (by omega)
    refine ⟨hnd_out, fun k => ⟨fun hk => hsub_out k hk, fun hk => hperm.mem_iff.mpr hk⟩, ?_⟩
    intro c hc
    exact (hord_out c hc (hperm.mem_iff.mpr (hconn c hc).2)).2
  · rw [if_neg hlen] at h
    exact absurd h (by simp)

theorem execNodes_cons_ok {e : Engine} {g : Graph} {a : String} {rest : List String}
    {outs m : List (String × List (String × Value))}
    (h : e.execNodes g (a :: rest) outs = .ok m) :
    ∃ node block o, lookup? g.nodes a = some node ∧
      lookup? e.blocks node.block_type = some block ∧
      block.execute { inputs := buildInputs g a outs, config := node.config } = .ok o ∧
      e.execNodes g rest (insertMap outs a o) = .ok m := by
  rw [execNodes_cons] at h
  cases hnode : lookup? g.nodes a with
  | none =>
    simp only [hnode] at h
    exact absurd h (by simp)
  | some node =>
    simp only [hnode] at h
    cases hblock : lookup? e.blocks node.block_type with
    | none =>
      simp only [hblock] at h
      exact absurd h (by simp)
    | some block =>
      simp only [hblock] at h
      cases hex : block.execute { inputs := buildInputs g a outs, config := node.config } with
      | error err =>
        simp only [hex] at h
        exact absurd h (by simp)
      | ok o =>
        simp only [hex] at h
        exact ⟨node, block, o, rfl, hblock, hex, h⟩

theorem execNodes_lookup_stable (e : Engine) (g : Graph) :
    ∀ (L : List String) (outs m : List (String × List (String × Value))),
    e.execNodes g L outs = .ok m → ∀ k, k ∉ L → lookup? m k = lookup? outs k := by
  intro L
  induction L with
  | nil =>
    intro outs m h k _
    injection h with h
    rw [← h]
  | cons a rest ih =>
    intro outs m h k hk
    obtain ⟨node, block, o, -, -, -, hrest⟩ := execNodes_cons_ok h
    have hka : k ≠ a := fun he => hk (he ▸ List.mem_cons_self ..)
    rw [ih _ _ hrest k (fun hc => hk (List.mem_cons_of_mem _ hc)),
      lookup?_insertMap_ne _ _ _ _ hka]

theorem buildFold_congr {o1 o2 : List (String × List (String × Value))}
    (conns : List Connection)
    (h : ∀ c ∈ conns, lookup? o1 c.from_node = lookup? o2 c.from_node) :
    ∀ acc, conns.foldl (buildStep o1) acc = conns.foldl (buildStep o2) acc := by
  induction conns with
  | nil => intro acc; rfl
  | cons c rest ih =>
    intro acc
    rw [List.foldl_cons, List.foldl_cons]
    rw [show buildStep o1 acc c = buildStep o2 acc c by
      unfold buildStep
      rw [h c (List.mem_cons_self ..)]]
    exact ih (fun c' hc' => h c' (List.mem_cons_of_mem _ hc')) _

theorem buildInputs_congr (g : Graph) (v : String)
    (o1 o2 : List (String × List (String × Value)))
    (h : ∀ c ∈ g.get_incoming_connections v,
      lookup? o1 c.from_node = lookup? o2 c.from_node) :
    buildInputs g v o1 = buildInputs g v o2 := by
  rw [buildInputs_eq_foldl, buildInputs_eq_foldl, buildFold_congr _ h]

/-- What a successful run stored for each node of the order: the output of
its block on the context built from the final mapping (final and
at-the-time inputs agree, because a node's input sources are emitted
strictly earlier and never overwritten). -/
theorem execNodes_run_spec (e : Engine) (g : Graph) (hwf : g.WF)
    (L : List String) (hvalid : ValidOrder g L)
    (m : List (String × List (String × Value)))
    (hrun : e.execNodes g L [] = .ok m)
    (A : List String) (v : String) (B : List String) (hsplit : L = A ++ v :: B) :
    ∃ node block o, lookup? g.nodes v = some node ∧
      lookup? e.blocks node.block_type = some block ∧
      block.execute { inputs := buildInputs g v m, config := node.config } = .ok o ∧
      lookup? m v = some o := by
  have hnodup := hvalid.1
  rw [hsplit] at hrun hnodup
  rw [execNodes_append] at hrun
  rw [List.nodup_append] at hnodup
  have hvB : v ∉ B := (List.nodup_cons.mp hnodup.2.1).1
  cases hA : e.execNodes g A [] with
  | error err =>
    rw [hA] at hrun
    simp at hrun
  | ok mA =>
    rw [hA] at hrun
    simp only [] at hrun
    have hrunVB := hrun
    obtain ⟨node, block, o, hnode, hblock, hex, hrest⟩ := execNodes_cons_ok hrun
    have hmv : lookup? m v = some o := by
      rw [execNodes_lookup_stable e g B _ m hrest v hvB, lookup?_insertMap_self]
    have hcongr : buildInputs g v m = buildInputs g v mA := by
      apply buildInputs_congr
      intro c hc
      have hcmem : c ∈ g.connections := (List.mem_filter.mp hc).1
      have hcto : c.to_node = v := by
        have h5 := (List.mem_filter.mp hc).2
        simpa using h5
      have hlt : L.indexOf c.from_node < L.indexOf v := by
        have h6 := hvalid.2.2 c hcmem
        rwa [hcto] at h6
      have huA : c.from_node ∈ A := mem_left_of_indexOf_lt hvalid.1 hsplit hlt
      have hunotVB : c.from_node ∉ v :: B := by
        intro hc2
        exact hnodup.2.2 huA hc2
      exact execNodes_lookup_stable e g (v :: B) mA m hrunVB c.from_node hunotVB
    refine ⟨node, block, o, hnode, hblock, ?_, hmv⟩
    rw [hcongr]
    exact hex

/-- Executing a graph along any two valid orders yields the same node-output
mapping (as a map: pointwise-equal lookups). -/
theorem execNodes_order_irrelevant (e : Engine) (g : Graph) (hwf : g.WF)
    (L1 : List String) (h1 : ValidOrder g L1)
    (m1 : List (String × List (String × Value)))
    (hrun1 : e.execNodes g L1 [] = .ok m1)
    (L2 : List String) (h2 : ValidOrder g L2) :
    ∃ m2, e.execNodes g L2 [] = .ok m2 ∧ ∀ k, lookup? m2 k = lookup? m1 k := by
  have hm1_none : ∀ k, k ∉ L1 → lookup? m1 k = none := by
    intro k hk
    rw [execNodes_lookup_stable e g L1 [] m1 hrun1 k hk]
    rfl
  have main : ∀ (L2' P : List String) (outs2 : List (String × List (String × Value))),
      L2 = P ++ L2' →
      (∀ u, lookup? outs2 u = if u ∈ P then lookup? m1 u else none) →
      ∃ m2, e.execNodes g L2' outs2 = .ok m2 ∧
        ∀ k, lookup? m2 k = if k ∈ P ++ L2' then lookup? m1 k else none := by
    intro L2'
    induction L2' with
    | nil =>
      intro P outs2 hP houts
      refine ⟨outs2, rfl, ?_⟩
      intro k
      rw [List.append_nil]
      exact houts k
    | cons v L2'' ih =>
      intro P outs2 hP houts
      have hvL2 : v ∈ L2 := by
        rw [hP]
        simp
      have hv_keys : v ∈ keysOf g.nodes := (h2.2.1 v).mp hvL2
      have hvL1 : v ∈ L1 := (h1.2.1 v).mpr hv_keys
      obtain ⟨A1, B1, hsplit1⟩ := List.append_of_mem hvL1
      obtain ⟨node, block, o, hnode, hblock, hex, hmv⟩ :=
        execNodes_run_spec e g hwf L1 h1 m1 hrun1 A1 v B1 hsplit1
      have hcongr : buildInputs g v outs2 = buildInputs g v m1 := by
        apply buildInputs_congr
        intro c hc
        have hcmem : c ∈ g.connections := (List.mem_filter.mp hc).1
        have hcto : c.to_node = v := by
          have h5 := (List.mem_filter.mp hc).2
          simpa using h5
        have hlt : L2.indexOf c.from_node < L2.indexOf v := by
          have h6 := h2.2.2 c hcmem
          rwa [hcto] at h6
        have huP : c.from_node ∈ P := mem_left_of_indexOf_lt h2.1 hP hlt
        rw [houts c.from_node, if_pos huP]
      have hstep : e.execNodes g (v :: L2'') outs2 =
          e.execNodes g L2'' (insertMap outs2 v o) := by
        rw [execNodes_cons]
        simp only [hnode, hblock, hcongr, hex]
      have houts' : ∀ u, lookup? (insertMap outs2 v o) u =
          if u ∈ P ++ [v] then lookup? m1 u else none := by
        intro u
        by_cases huv : u = v
        · subst huv
          rw [lookup?_insertMap_self, if_pos (by simp), hmv]
        · rw [lookup?_insertMap_ne _ _ _ _ huv, houts u]
          by_cases huP : u ∈ P
          · rw [if_pos huP, if_pos (by simp [huP])]
          · rw [if_neg huP, if_neg (by simp [huP, huv])]
      obtain ⟨m2, hm2run, hm2⟩ := ih (P ++ [v]) (insertMap outs2 v o)
        (by rw [hP, List.append_assoc]; rfl) houts'
      refine ⟨m2, by rw [hstep]; exact hm2run, ?_⟩
      intro k
      rw [hm2 k, List.append_assoc]
      rfl
  obtain ⟨m2, hm2run, hm2⟩ := main L2 [] [] rfl (by intro u; simp)
  refine ⟨m2, hm2run, ?_⟩
  intro k
  rw [hm2 k]
  by_cases hk : k ∈ L2
  · rw [if_pos (by simpa using hk)]
  · rw [if_neg (by simpa using hk)]
    have hk1 : k ∉ L1 := fun hc => hk ((h2.2.1 k).mpr ((h1.2.1 k).mp hc))
    rw [hm1_none k hk1]

/-- C6: given a fixed graph and a fixed set of deterministic block
implementations registered in the engine (every Block of the embedding is a
pure function of its context, as the spec requires of conforming blocks),
two calls to `execute_graph` with the same graph id on the same engine
state return identical node-output mappings: `execute_graph` is a pure
function of the engine state, so the second call returns the same `.ok m1`;
and — covering the arbitrary per-map hash iteration order behind the
scheduler's tie-breaking, the one source of variation in the Rust code —
running the loaded graph along ANY valid topological order yields a
mapping that agrees with `m1` on every node id. -/
theorem execution_deterministic (e : Engine) (gid : String) (g : Graph)
    (hg : lookup? e.graphs gid = some g) (hwf : g.WF)
    (m1 : List (String × List (String × Value)))
    (hrun : e.execute_graph gid = .ok m1) :
    e.execute_graph gid = .ok m1 ∧
    ∀ L2, ValidOrder g L2 →
      ∃ m2, e.execNodes g L2 [] = .ok m2 ∧ ∀ k, lookup? m2 k = lookup? m1 k := by
  refine ⟨hrun, ?_⟩
  simp only [Engine.execute_graph, hg, Engine.execute] at hrun
  cases hsort : g.topological_sort with
  | error err =>
    rw [hsort] at hrun
    simp at hrun
  | ok L1 =>
    rw [hsort] at hrun
    simp only [] at hrun
    have hvalid1 := topological_sort_valid g hwf L1 hsort
    intro L2 h2
    exact execNodes_order_irrelevant e g hwf L1 hvalid1 m1 hrun L2 h2

/-- One-constant graph fixture for the determinism witness. -/
def constGraph : Graph :=
  { id := "gc", name := "Const graph", description := none,
    nodes := [("c5", { id := "c5", block_type := "core.constant", config := [("value", Value.float 5)], position := none })],
    connections := [] }

/-- Engine fixture with the constant block and the one-constant graph. -/
def constEngine : Engine :=
  { blocks := [("core.constant", ConstantBlock)], graphs := [("gc", constGraph)] }

/-- C6 witness: the loaded one-constant graph executes to the same mapping
along its (only) valid order as the `execute_graph` call returned. -/
theorem execution_deterministic_witness :
    ∃ m2, constEngine.execNodes constGraph ["c5"] [] = .ok m2 ∧
      ∀ k, lookup? m2 k = lookup? [("c5", [("value", Value.float 5)])] k :=
  (execution_deterministic constEngine "gc" constGraph rfl
      ⟨by decide, fun c hc => absurd hc (by simp [constGraph])⟩
      [("c5", [("value", Value.float 5)])] rfl).2 ["c5"]
      ⟨by decide, fun k => Iff.rfl, fun c hc => absurd hc (by simp [constGraph])⟩

end Circuit
